import Mathlib

/-!
Shallow embedding of the sekas transactional storage core:
the per-shard MVCC write path (`write_intent` / `commit_intent`) from
`src/server/src/replica/eval/cmd_txn.rs`, the root transaction-id allocator and
node lifecycle from `src/server/src/root/mod.rs`, the heartbeat queue, and the
etcd-compatibility KV shim from `layers/etcd/src/kv.rs`.

Machine integers (u64, i64) are modelled as `Nat` / `Int` with explicit
wrap-around where the source wraps; byte strings are lists of `Fin 256`;
fallible code returns `Except Error`.
-/

namespace Sekas

/-- A single byte, as stored by the engine. -/
abbrev Byte := Fin 256

/-- A byte string (Rust `Vec<u8>` / `&[u8]`). -/
abbrev Bytes := List Byte

/-- Truncate a natural number to one byte. -/
def byteOf (n : Nat) : Byte := ⟨n % 256, Nat.mod_lt _ (by decide)⟩

/-- Big-endian bytes of the low 64 bits of `n` (Rust `u64::to_be_bytes` /
`i64::to_be_bytes` on the two's-complement bit pattern). -/
def natToBe8 (n : Nat) : Bytes :=
  [byteOf (n / 72057594037927936), byteOf (n / 281474976710656),
   byteOf (n / 1099511627776), byteOf (n / 4294967296),
   byteOf (n / 16777216), byteOf (n / 65536), byteOf (n / 256), byteOf n]

/-- Big-endian value of a byte string. -/
def beNat (b : Bytes) : Nat := b.foldl (fun acc x => acc * 256 + x.val) 0

/-- Reinterpret a 64-bit unsigned value as a signed i64 (two's complement). -/
def toI64 (n : Nat) : Int :=
  if n < 9223372036854775808 then (n : Int) else (n : Int) - 18446744073709551616

/-- `sekas_rock::num::decode_i64`: decode exactly 8 bytes as a big-endian i64. -/
def decode_i64 (b : Bytes) : Option Int :=
  if b.length = 8 then some (toI64 (beNat b)) else none

/-- Big-endian byte encoding of an i64 (Rust `i64::to_be_bytes`). -/
def i64_to_be_bytes (v : Int) : Bytes :=
  natToBe8 ((v % 18446744073709551616).toNat)

/-- Rust `i64::wrapping_add` over mathematical integers restricted to i64. -/
def wrapping_add_i64 (a b : Int) : Int :=
  toI64 (((a + b) % 18446744073709551616).toNat)

/-- The reserved intent version, `u64::MAX`
(`sekas_schema::system::txn::TXN_INTENT_VERSION`). -/
def TXN_INTENT_VERSION : Nat := 18446744073709551615

/-- A versioned value record (`sekas_api::server::v1::Value`):
`content = none` is a tombstone. -/
structure Value where
  version : Nat
  content : Option Bytes
deriving DecidableEq

/-- A pending transaction intent (`sekas_api::server::v1::TxnIntent`). -/
structure TxnIntent where
  start_version : Nat
  is_delete : Bool
  value : Option Bytes
deriving DecidableEq

/-- `TxnIntent::tombstone(start_version)`. -/
def TxnIntent.tombstone (start_version : Nat) : TxnIntent :=
  ⟨start_version, true, none⟩

/-- `TxnIntent::with_put(start_version, value)`. -/
def TxnIntent.with_put (start_version : Nat) (value : Option Bytes) : TxnIntent :=
  ⟨start_version, false, value⟩

/-- Wire encoding of a `TxnIntent` (`Message::encode_to_vec`): an injective
byte serialization of the three fields, standing in for the protobuf format. -/
def encodeTxnIntent (it : TxnIntent) : Bytes :=
  natToBe8 it.start_version ++
    [if it.is_delete then (1 : Byte) else 0] ++
    (match it.value with
     | none => [(0 : Byte)]
     | some v => (1 : Byte) :: v)

/-- Partial inverse of `encodeTxnIntent` (`TxnIntent::decode`). -/
def decodeTxnIntent (b : Bytes) : Option TxnIntent :=
  match b with
  | b0 :: b1 :: b2 :: b3 :: b4 :: b5 :: b6 :: b7 :: d :: m :: rest =>
    let sv := beNat [b0, b1, b2, b3, b4, b5, b6, b7]
    let isDel : Bool := if d.val = 0 then false else true
    if m.val = 0 then
      if rest = [] then some ⟨sv, isDel, none⟩ else none
    else some ⟨sv, isDel, some rest⟩
  | _ => none

deriving instance DecidableEq for Except

/-- The error taxonomy used by the modelled code paths (`crate::Error`). -/
inductive Error where
  | InvalidArgument (msg : String)
  | InvalidData (msg : String)
  | CasFailed (idx : Nat) (cond_idx : Nat) (prev_value : Option Value)
  | NotLeader (group_id : Nat) (epoch : Nat)
deriving DecidableEq

/-- `sekas_api::server::v1::PutType`. -/
inductive PutType where
  | None
  | AddI64
  | Nop
deriving DecidableEq

/-! ### Group engine state

The group engine (external collaborator, §4.1 of the spec) is modelled as a
map from `(shard_id, key)` to the key's chain of versioned records, newest
(highest version) first.  Writes are staged in a `WriteBatch` and applied
atomically by `applyBatch`. -/

/-- A staged engine mutation (`GroupEngine::{put, delete, tombstone}` on a
`WriteBatch`). -/
inductive Mutation where
  | put (shard_id : Nat) (key : Bytes) (value : Bytes) (version : Nat)
  | del (shard_id : Nat) (key : Bytes) (version : Nat)
  | tombstone (shard_id : Nat) (key : Bytes) (version : Nat)
deriving DecidableEq

/-- A write batch: staged mutations in staging order. -/
abbrev WriteBatch := List Mutation

/-- Engine state: per `(shard, key)` chain of records, highest version first. -/
def EngineState := Nat → Bytes → List Value

/-- Insert a record into a descending-by-version chain, replacing any existing
record carrying the same version. -/
def insertVersioned : List Value → Value → List Value
  | [], v => [v]
  | e :: rest, v =>
    if e.version < v.version then v :: e :: rest
    else if e.version = v.version then v :: rest
    else e :: insertVersioned rest v

/-- Remove the record at `version` from a chain. -/
def removeVersion (chain : List Value) (version : Nat) : List Value :=
  chain.filter (fun v => decide (v.version ≠ version))

/-- Point update of one chain in the engine state. -/
def setChain (st : EngineState) (shard_id : Nat) (key : Bytes)
    (chain : List Value) : EngineState :=
  fun s k => if s = shard_id ∧ k = key then chain else st s k

/-- Apply one staged mutation. -/
def applyMutation (st : EngineState) : Mutation → EngineState
  | .put s k v ver => setChain st s k (insertVersioned (st s k) ⟨ver, some v⟩)
  | .del s k ver => setChain st s k (removeVersion (st s k) ver)
  | .tombstone s k ver => setChain st s k (insertVersioned (st s k) ⟨ver, none⟩)

/-- `GroupEngine::commit`: apply a write batch atomically, in staging order. -/
def applyBatch (st : EngineState) (wb : WriteBatch) : EngineState :=
  wb.foldl applyMutation st

/-- Apply an optional `EvalResult` (an absent result leaves the state as is). -/
def applyEvalResult (st : EngineState) : Option WriteBatch → EngineState
  | none => st
  | some wb => applyBatch st wb

/-- Well-formedness of an engine state: every stored version fits in a u64
(so the reserved intent version `u64::MAX` is the largest possible). -/
def WfEngine (st : EngineState) : Prop :=
  ∀ s k, ∀ v ∈ st s k, v.version ≤ TXN_INTENT_VERSION

/-! ### Conditional-write evaluation

The condition enum and `eval_conditions` live in
`src/server/src/replica/eval/cas.rs`, which is not part of this snippet;
they are modelled from the spec (§4.2 step 4 and §8). -/

/-- Modelled from the spec: the closed set of write conditions supported by
`eval_conditions` (the source file `cas.rs` is not in the snippet). -/
inductive WriteCondition where
  | ExpectExists
  | ExpectNotExists
  | ExpectValue (v : Bytes)
  | ExpectVersionLt (v : Nat)
  | ExpectVersionLe (v : Nat)
  | ExpectVersionEq (v : Nat)
  | ExpectStartsWith (p : Bytes)
deriving DecidableEq

/-- Byte-string prefix test used by `ExpectStartsWith`. -/
def startsWithBytes : Bytes → Bytes → Bool
  | _, [] => true
  | [], _ :: _ => false
  | b :: bs, p :: ps => if b = p then startsWithBytes bs ps else false

/-- Modelled from the spec: each condition maps the observed `prev_value` to a
boolean; a tombstone counts as "not exists" (spec §4.2 step 3 and §8:
`ExpectExists` fails iff prev is `None` or a tombstone, `ExpectNotExists`
fails iff prev is a present value). -/
def evalOneCondition (prev_value : Option Value) : WriteCondition → Bool
  | .ExpectExists =>
    match prev_value with
    | some v => v.content.isSome
    | none => false
  | .ExpectNotExists =>
    match prev_value with
    | some v => v.content.isNone
    | none => true
  | .ExpectValue expect =>
    match prev_value with
    | some v => v.content = some expect
    | none => false
  | .ExpectVersionLt bound =>
    match prev_value with
    | some v => v.version < bound
    | none => false
  | .ExpectVersionLe bound =>
    match prev_value with
    | some v => v.version ≤ bound
    | none => false
  | .ExpectVersionEq bound =>
    match prev_value with
    | some v => v.version = bound
    | none => false
  | .ExpectStartsWith p =>
    match prev_value with
    | some v =>
      match v.content with
      | some c => startsWithBytes c p
      | none => false
    | none => false

/-- Modelled from the spec: `eval_conditions` returns the index of the first
failing condition, or `none` when all conditions hold. -/
def eval_conditions (prev_value : Option Value) (conds : List WriteCondition) :
    Option Nat :=
  conds.findIdx? (fun c => !evalOneCondition prev_value c)

/-! ### The write-intent path (`cmd_txn.rs::write_intent`) -/

/-- `sekas_api::server::v1::DeleteRequest` (the fields `write_intent` uses). -/
structure DeleteRequest where
  key : Bytes
  conditions : List WriteCondition
  take_prev_value : Bool
deriving DecidableEq

/-- `sekas_api::server::v1::PutRequest` (the fields `write_intent` uses). -/
structure PutRequest where
  put_type : PutType
  key : Bytes
  value : Bytes
  conditions : List WriteCondition
  take_prev_value : Bool
deriving DecidableEq

/-- `sekas_api::server::v1::ShardWriteRequest`. -/
structure ShardWriteRequest where
  shard_id : Nat
  puts : List PutRequest
  deletes : List DeleteRequest
deriving DecidableEq

/-- `sekas_api::server::v1::WriteIntentRequest`. -/
structure WriteIntentRequest where
  start_version : Nat
  write : Option ShardWriteRequest
deriving DecidableEq

/-- Per-write response (`WriteResponse`). -/
structure WriteResponse where
  prev_value : Option Value
deriving DecidableEq

/-- `ShardWriteResponse`. -/
structure ShardWriteResponse where
  deletes : List WriteResponse
  puts : List WriteResponse
deriving DecidableEq

/-- `WriteIntentResponse`. -/
structure WriteIntentResponse where
  write : Option ShardWriteResponse
deriving DecidableEq

/-- The latch guard's `resolve_txn(shard_id, key, txn_intent)` bridge, §4.3 of
the spec: a deterministic stand-in returning the resolved prior committed
value, or `none` when the other transaction aborted. -/
def Resolver := Nat → Bytes → TxnIntent → Except Error (Option Value)

/-- `cmd_txn.rs::read_intent_and_next_key`: take a key-scoped snapshot and
read the top record; when it is an intent, decode it and also yield the
record beneath it. -/
def read_intent_and_next_key (st : EngineState) (start_version shard_id : Nat)
    (key : Bytes) : Except Error (Option TxnIntent × Option Value) :=
  match st shard_id key with
  | [] => .ok (none, none)
  | entry :: rest =>
    if entry.version = TXN_INTENT_VERSION then
      match entry.content with
      | none => .error (.InvalidData "intent value must exist")
      | some content =>
        match decodeTxnIntent content with
        | none => .error (.InvalidData "failed to decode txn intent")
        | some txn_intent => .ok (some txn_intent, rest.head?)
    else .ok (none, some entry)

/-- The shared head of each loop body of `write_intent`: read intent and
previous value for one key, resolve a foreign intent through the latch guard,
and decide whether this write is an idempotent replay (`skip_write`). -/
def observeWrite (st : EngineState) (resolve : Resolver)
    (start_version shard_id : Nat) (key : Bytes) :
    Except Error (Bool × Option Value) := do
  let (txn_intent, prev_value) ← read_intent_and_next_key st start_version shard_id key
  match txn_intent with
  | some intent =>
    if intent.start_version ≠ start_version then
      match ← resolve shard_id key intent with
      | some v => pure (false, some v)
      | none => pure (false, prev_value)
    else pure (true, prev_value)
  | none => pure (false, prev_value)

/-- `cmd_txn.rs::apply_put_op`: compute the stored bytes for one put. -/
def apply_put_op (ty : PutType) (prev_value : Option Value) (value : Bytes) :
    Except Error (Option Bytes) :=
  match ty with
  | .AddI64 =>
    match decode_i64 value with
    | none => .error (.InvalidArgument "input value is not a valid i64")
    | some delta =>
      match prev_value.bind (fun v => v.content) with
      | some content =>
        match decode_i64 content with
        | none => .error (.InvalidArgument "the exists value is not a valid i64")
        | some former_value =>
          .ok (some (i64_to_be_bytes (wrapping_add_i64 former_value delta)))
      | none => .ok (some (i64_to_be_bytes (wrapping_add_i64 0 delta)))
  | .None => .ok (some value)
  | .Nop => .ok none

/-- One iteration of the deletes loop of `write_intent`: the staged mutation
(if the write is not an idempotent skip) and the per-write response. -/
def stepDelete (st : EngineState) (resolve : Resolver)
    (start_version shard_id idx : Nat) (del : DeleteRequest) :
    Except Error (Option Mutation × WriteResponse) := do
  let (skip_write, prev_value) ← observeWrite st resolve start_version shard_id del.key
  if skip_write then
    pure (none, ⟨if del.take_prev_value then prev_value else none⟩)
  else
    match eval_conditions prev_value del.conditions with
    | some cond_idx => throw (.CasFailed idx cond_idx prev_value)
    | none =>
      let txn_intent := encodeTxnIntent (TxnIntent.tombstone start_version)
      pure (some (.put shard_id del.key txn_intent TXN_INTENT_VERSION),
            ⟨if del.take_prev_value then prev_value else none⟩)

/-- One iteration of the puts loop of `write_intent`; on a condition failure
the reported index is `num_deletes + idx`. -/
def stepPut (st : EngineState) (resolve : Resolver)
    (start_version shard_id num_deletes idx : Nat) (put : PutRequest) :
    Except Error (Option Mutation × WriteResponse) := do
  let (skip_write, prev_value) ← observeWrite st resolve start_version shard_id put.key
  if skip_write then
    pure (none, ⟨if put.take_prev_value then prev_value else none⟩)
  else
    match eval_conditions prev_value put.conditions with
    | some cond_idx => throw (.CasFailed (num_deletes + idx) cond_idx prev_value)
    | none => do
      let apply_value ← apply_put_op put.put_type prev_value put.value
      let txn_intent := encodeTxnIntent (TxnIntent.with_put start_version apply_value)
      pure (some (.put shard_id put.key txn_intent TXN_INTENT_VERSION),
            ⟨if put.take_prev_value then prev_value else none⟩)

/-- The deletes loop of `write_intent`, starting at loop index `idx`. -/
def processDeletes (st : EngineState) (resolve : Resolver)
    (start_version shard_id : Nat) :
    Nat → List DeleteRequest → Except Error (WriteBatch × List WriteResponse)
  | _, [] => .ok ([], [])
  | idx, del :: rest => do
    let (mutOpt, wr) ← stepDelete st resolve start_version shard_id idx del
    let (wb, wrs) ← processDeletes st resolve start_version shard_id (idx + 1) rest
    pure (mutOpt.toList ++ wb, wr :: wrs)

/-- The puts loop of `write_intent`, starting at loop index `idx`. -/
def processPuts (st : EngineState) (resolve : Resolver)
    (start_version shard_id num_deletes : Nat) :
    Nat → List PutRequest → Except Error (WriteBatch × List WriteResponse)
  | _, [] => .ok ([], [])
  | idx, put :: rest => do
    let (mutOpt, wr) ← stepPut st resolve start_version shard_id num_deletes idx put
    let (wb, wrs) ← processPuts st resolve start_version shard_id num_deletes (idx + 1) rest
    pure (mutOpt.toList ++ wb, wr :: wrs)

/-- `cmd_txn.rs::write_intent`: stage intent records for every write of the
request; the returned `EvalResult` (here: its write batch) is absent exactly
when the computed batch is empty.  An error return (`InvalidArgument`,
`CasFailed`, `InvalidData`) carries no batch, so nothing is mutated. -/
def write_intent (resolve : Resolver) (st : EngineState)
    (req : WriteIntentRequest) :
    Except Error (Option WriteBatch × WriteIntentResponse) := do
  match req.write with
  | none => throw (.InvalidArgument "`write` is required")
  | some write => do
    let num_deletes := write.deletes.length
    let (wbD, delResps) ←
      processDeletes st resolve req.start_version write.shard_id 0 write.deletes
    let (wbP, putResps) ←
      processPuts st resolve req.start_version write.shard_id num_deletes 0 write.puts
    let wb := wbD ++ wbP
    pure (if wb.isEmpty then none else some wb,
          ⟨some ⟨delResps, putResps⟩⟩)

/-! ### The commit-intent path (`cmd_txn.rs::commit_intent`) -/

/-- `sekas_api::server::v1::CommitIntentRequest`. -/
structure CommitIntentRequest where
  shard_id : Nat
  start_version : Nat
  commit_version : Nat
  keys : List Bytes
deriving DecidableEq

/-- `cmd_txn.rs::read_target_intent`: read the current value of a key via
`engine.get`; yield the intent only when the top record is an intent whose
`start_version` matches (idempotence). -/
def read_target_intent (st : EngineState) (start_version shard_id : Nat)
    (key : Bytes) : Except Error (Option TxnIntent) :=
  match (st shard_id key).head? with
  | none => .ok none
  | some value =>
    if value.version ≠ TXN_INTENT_VERSION then .ok none
    else
      match value.content with
      | none => .error (.InvalidData "txn intent without value")
      | some content =>
        match decodeTxnIntent content with
        | none => .error (.InvalidData "failed to decode txn intent")
        | some intent =>
          if intent.start_version ≠ start_version then .ok none
          else .ok (some intent)

/-- The mutations staged by one iteration of the `commit_intent` key loop. -/
def commitKeyMuts (st : EngineState) (start_version commit_version shard_id : Nat)
    (key : Bytes) : Except Error (List Mutation) := do
  match ← read_target_intent st start_version shard_id key with
  | none => pure []
  | some intent =>
    if intent.is_delete then
      pure [.del shard_id key TXN_INTENT_VERSION,
            .tombstone shard_id key commit_version]
    else
      match intent.value with
      | some value =>
        pure [.del shard_id key TXN_INTENT_VERSION,
              .put shard_id key value commit_version]
      | none => pure [.del shard_id key TXN_INTENT_VERSION]

/-- The full key loop of `commit_intent`, accumulating the write batch. -/
def commitBatch (st : EngineState) (start_version commit_version shard_id : Nat) :
    List Bytes → Except Error WriteBatch
  | [] => pure []
  | key :: rest => do
    let muts ← commitKeyMuts st start_version commit_version shard_id key
    let wb ← commitBatch st start_version commit_version shard_id rest
    pure (muts ++ wb)

/-- `cmd_txn.rs::commit_intent`: for each key holding an intent with matching
`start_version`, delete the intent record and install the committed record at
`commit_version`; keys without a matching intent are skipped (idempotent
replay).  The latch signalling (`signal_all(Committed, ..)`) has no effect on
the engine state and is not modelled. -/
def commit_intent (st : EngineState) (req : CommitIntentRequest) :
    Except Error (Option WriteBatch) := do
  let wb ← commitBatch st req.start_version req.commit_version req.shard_id req.keys
  pure (if wb.isEmpty then none else some wb)

/-! ### Root transaction-id allocator (`root/mod.rs`)

`RootCore` holds the allocation cursor `next_txn_id` and the reserved ceiling
`max_txn_id`; `max_txn_id = 0` means "not leader".  The ceiling is persisted
to the schema (`set_txn_id`) before it is published, so the model also tracks
the persisted marker.  The concurrent CAS loop of `alloc_txn_id` is
sequentialized: one call either errors (`NotLeader`), blocks awaiting a bump
(`wouldBlock`, the `yield_now` retry), or atomically advances the cursor. -/

/-- The allocator-relevant state of `RootCore` plus the schema-persisted
`max_txn_id` marker. -/
structure AllocState where
  next_txn_id : Nat
  max_txn_id : Nat
  persisted_txn_id : Nat
deriving DecidableEq

/-- Outcome of one `Root::alloc_txn_id` call in the sequential model. -/
inductive AllocOutcome where
  | notLeader
  | wouldBlock
  | ok (txn_id : Nat) (state : AllocState)
deriving DecidableEq

/-- `Root::alloc_txn_id(num_required)`: error with `NotLeader` when the loaded
`max_txn_id` is 0; retry (block) while `next + n` exceeds `max`; otherwise
return the old cursor and advance it by `num_required`. -/
def alloc_txn_id (s : AllocState) (num_required : Nat) : AllocOutcome :=
  if s.max_txn_id = 0 then .notLeader
  else if s.max_txn_id < s.next_txn_id + num_required then .wouldBlock
  else .ok s.next_txn_id
    ⟨s.next_txn_id + num_required, s.max_txn_id, s.persisted_txn_id⟩

/-- `RootCore::bump_txn_id` at wall clock `now` (nanoseconds): persist
`max(max_txn_id, now) + 5e9` and release it as the new ceiling. -/
def bump_txn_id (now : Nat) (s : AllocState) : AllocState :=
  let txn_id := Nat.max s.max_txn_id now
  ⟨s.next_txn_id, txn_id + 5000000000, txn_id + 5000000000⟩

/-- `Root::step_leader`'s allocator setup: load the persisted `max_txn_id`,
start with `next = max = persisted`, then bump once. -/
def step_leader (persisted now : Nat) : AllocState :=
  bump_txn_id now ⟨persisted, persisted, persisted⟩

/-- An allocator-affecting event during one leadership term. -/
inductive RootEvent where
  | alloc (num_required : Nat)
  | bump (now : Nat)
deriving DecidableEq

/-- One event step; a successful allocation is recorded as `(start, n)`. -/
def stepEvent (s : AllocState) : RootEvent → AllocState × Option (Nat × Nat)
  | .alloc n =>
    match alloc_txn_id s n with
    | .ok r s' => (s', some (r, n))
    | _ => (s, none)
  | .bump now => (bump_txn_id now s, none)

/-- Run a sequence of events, collecting the successful allocations. -/
def runTrace (s : AllocState) : List RootEvent → AllocState × List (Nat × Nat)
  | [] => (s, [])
  | e :: es =>
    let (s', r) := stepEvent s e
    let (s'', rs) := runTrace s' es
    (s'', r.toList ++ rs)

/-! ### Node lifecycle (`root/mod.rs::{cordon_node, uncordon_node, begin_drain}`)

The schema's node table is modelled as an association list from node id to
status; `get_node` / `update_node` are modelled from the spec (the `Schema`
type is not in the snippet) as lookup and point update. -/

/-- `sekas_api::server::v1::NodeStatus`. -/
inductive NodeStatus where
  | Active
  | Cordoned
  | Draining
  | Drained
  | Decommissioned
deriving DecidableEq

/-- The node table held by the schema. -/
abbrev NodeTable := List (Nat × NodeStatus)

/-- Modelled from the spec: `Schema::get_node` — look up a node's descriptor
(here, its status) by id. -/
def get_node : NodeTable → Nat → Option NodeStatus
  | [], _ => none
  | e :: rest, node_id => if e.1 = node_id then some e.2 else get_node rest node_id

/-- Modelled from the spec: `Schema::update_node` — persist a node descriptor,
replacing the entry with the same id. -/
def update_node (t : NodeTable) (node_id : Nat) (status : NodeStatus) : NodeTable :=
  t.map (fun e => if e.1 = node_id then (node_id, status) else e)

/-- The two reconcile tasks `begin_drain` can enqueue. -/
inductive ReconcileTask where
  | ShedRoot (node_id : Nat)
  | ShedLeader (node_id : Nat)
deriving DecidableEq

/-- `Root::cordon_node`: only an `Active` node becomes `Cordoned`; any refusal
is `InvalidArgument` and returns the table unchanged. -/
def cordon_node (t : NodeTable) (node_id : Nat) : Except Error Unit × NodeTable :=
  match get_node t node_id with
  | none => (.error (.InvalidArgument "node not found"), t)
  | some status =>
    if status = .Active then (.ok (), update_node t node_id .Cordoned)
    else (.error (.InvalidArgument "node already cordoned"), t)

/-- `Root::uncordon_node`: `Cordoned`, `Drained` or `Decommissioned` becomes
`Active`; any refusal is `InvalidArgument` with the table unchanged. -/
def uncordon_node (t : NodeTable) (node_id : Nat) : Except Error Unit × NodeTable :=
  match get_node t node_id with
  | none => (.error (.InvalidArgument "node not found"), t)
  | some status =>
    if status = .Cordoned ∨ status = .Drained ∨ status = .Decommissioned then
      (.ok (), update_node t node_id .Active)
    else (.error (.InvalidArgument "node status unsupport uncordon"), t)

/-- `Root::begin_drain`: when the target is the current root leader itself,
enqueue a `ShedRoot` task and refuse; otherwise only a `Cordoned` node starts
`Draining`, with a `ShedLeader` task enqueued on success.  The third component
is the list of enqueued reconcile tasks. -/
def begin_drain (current_node_id : Nat) (t : NodeTable) (node_id : Nat) :
    Except Error Unit × NodeTable × List ReconcileTask :=
  if current_node_id = node_id then
    (.error (.InvalidArgument "node is root leader, try again later"), t,
     [.ShedRoot node_id])
  else
    match get_node t node_id with
    | none => (.error (.InvalidArgument "node not found"), t, [])
    | some status =>
      if status = .Cordoned then
        (.ok (), update_node t node_id .Draining, [.ShedLeader node_id])
      else
        (.error (.InvalidArgument "only in cordoned status node can be drain"), t, [])

/-! ### Heartbeat queue (`root/mod.rs::HeartbeatQueue::try_schedule`)

The queue core holds the enable flag and `node_scheduled`, a map from node id
to the scheduled deadline.  The `DelayQueue` entry behind each map entry
always carries the same deadline (`insert_at` and `reset_at` keep the two in
sync), so the map is the observable state.  Instants are modelled as `Nat`. -/

/-- `HeartbeatTask`. -/
structure HeartbeatTask where
  node_id : Nat
deriving DecidableEq

/-- The observable state of `HeartbeatQueueCore`. -/
structure HBQueueCore where
  enable : Bool
  node_scheduled : List (Nat × Nat)
deriving DecidableEq

/-- Lookup in `node_scheduled`. -/
def hbLookup : List (Nat × Nat) → Nat → Option Nat
  | [], _ => none
  | e :: rest, node => if e.1 = node then some e.2 else hbLookup rest node

/-- Replace the deadline of an existing `node_scheduled` entry (`reset_at`). -/
def hbUpdate (m : List (Nat × Nat)) (node whenAt : Nat) : List (Nat × Nat) :=
  m.map (fun e => if e.1 = node then (node, whenAt) else e)

/-- Insert a fresh entry (`insert_at`). -/
def hbInsert (m : List (Nat × Nat)) (node whenAt : Nat) : List (Nat × Nat) :=
  m ++ [(node, whenAt)]

/-- One iteration of the `try_schedule` loop for a single task. -/
def try_schedule_step (core : HBQueueCore) (node whenAt : Nat) : HBQueueCore :=
  match hbLookup core.node_scheduled node with
  | some old_when =>
    if whenAt < old_when then
      { core with node_scheduled := hbUpdate core.node_scheduled node whenAt }
    else core
  | none => { core with node_scheduled := hbInsert core.node_scheduled node whenAt }

/-- `HeartbeatQueue::try_schedule(tasks, when)`: a no-op while disabled;
otherwise processes the tasks in order (the periodic `yield_now` every 10
insertions does not change the resulting state). -/
def try_schedule (core : HBQueueCore) (tasks : List HeartbeatTask) (whenAt : Nat) :
    HBQueueCore :=
  if core.enable then
    tasks.foldl (fun c task => try_schedule_step c task.node_id whenAt) core
  else core

/-! ### The etcd-compatibility KV shim (`layers/etcd/src/kv.rs`)

Every handler body is `todo!()`, which panics with "not yet implemented";
the outcome type distinguishes a returned gRPC status from a panic. -/

/-- A gRPC status code (the subset the model distinguishes). -/
inductive GrpcCode where
  | unimplemented
  | internal
deriving DecidableEq

/-- Outcome of one gRPC handler invocation: a reply, an error status, or an
aborted (panicked) handler. -/
inductive RpcOutcome (α : Type) where
  | response (resp : α)
  | status (code : GrpcCode)
  | panicked (msg : String)
deriving DecidableEq

/-- `etcd::v3::RangeRequest` (fields unused by the shim). -/
structure RangeRequest where
  key : Bytes
deriving DecidableEq

/-- `etcd::v3::RangeResponse`. -/
structure RangeResponse where
  kvs : List (Bytes × Bytes)
deriving DecidableEq

/-- `etcd::v3::PutRequest` (the etcd one, distinct from the sekas write path). -/
structure EtcdPutRequest where
  key : Bytes
  value : Bytes
deriving DecidableEq

/-- `etcd::v3::PutResponse`. -/
structure EtcdPutResponse where
  prev_kv : Option (Bytes × Bytes)
deriving DecidableEq

/-- `etcd::v3::DeleteRangeRequest`. -/
structure DeleteRangeRequest where
  key : Bytes
deriving DecidableEq

/-- `etcd::v3::DeleteRangeResponse`. -/
structure DeleteRangeResponse where
  deleted : Nat
deriving DecidableEq

/-- `etcd::v3::TxnRequest`. -/
structure TxnRequest where
  dummy : Unit
deriving DecidableEq

/-- `etcd::v3::TxnResponse`. -/
structure TxnResponse where
  succeeded : Bool
deriving DecidableEq

/-- `kv.rs` `Kv::range`: the body is `todo!()`, so the handler panics. -/
def kv_range (_request : RangeRequest) : RpcOutcome RangeResponse :=
  .panicked "not yet implemented"

/-- `kv.rs` `Kv::put`: the body is `todo!()`, so the handler panics. -/
def kv_put (_request : EtcdPutRequest) : RpcOutcome EtcdPutResponse :=
  .panicked "not yet implemented"

/-- `kv.rs` `Kv::delete_range`: the body is `todo!()`, so the handler panics. -/
def kv_delete_range (_request : DeleteRangeRequest) : RpcOutcome DeleteRangeResponse :=
  .panicked "not yet implemented"

/-- `kv.rs` `Kv::txn`: the body is `todo!()`, so the handler panics. -/
def kv_txn (_request : TxnRequest) : RpcOutcome TxnResponse :=
  .panicked "not yet implemented"

/-! ### Derived notions used by the verification -/

/-- The `(shard, key)` a mutation addresses. -/
def Mutation.shardKey : Mutation → Nat × Bytes
  | .put s k _ _ => (s, k)
  | .del s k _ => (s, k)
  | .tombstone s k _ => (s, k)

/-- The top record of `(shard, key)` is an intent whose `start_version` is
`sv` (exactly the situation `write_intent` treats as an idempotent replay). -/
def topMatchesIntent (st : EngineState) (shard_id : Nat) (key : Bytes) (sv : Nat) : Prop :=
  ∃ e rest, st shard_id key = e :: rest ∧ e.version = TXN_INTENT_VERSION ∧
    ∃ c it, e.content = some c ∧ decodeTxnIntent c = some it ∧ it.start_version = sv

/-- Every mutation of the batch is an intent record staged at
`TXN_INTENT_VERSION` for start version `sv` (the only mutations
`write_intent` ever stages). -/
def IsIntentBatch (sv : Nat) (wb : WriteBatch) : Prop :=
  ∀ m ∈ wb, ∃ s k it,
    m = .put s k (encodeTxnIntent it) TXN_INTENT_VERSION ∧ it.start_version = sv

/-- Apply a list of mutations to a single key's chain (the chain-level view of
`applyBatch` for the mutations addressing that key). -/
def applyChain : List Mutation → List Value → List Value
  | [], chain => chain
  | .put _ _ v ver :: rest, chain => applyChain rest (insertVersioned chain ⟨ver, some v⟩)
  | .del _ _ ver :: rest, chain => applyChain rest (removeVersion chain ver)
  | .tombstone _ _ ver :: rest, chain => applyChain rest (insertVersioned chain ⟨ver, none⟩)

/-- The engine state used by the concrete `commit_intent` scenarios: shard 1,
key `[2]` holds a value-less (`Nop`) intent of transaction 5. -/
def stNopIntent : EngineState := fun s k =>
  if s = 1 ∧ k = [2] then
    [⟨TXN_INTENT_VERSION, some (encodeTxnIntent ⟨5, false, none⟩)⟩]
  else []

/-- Concrete engine state: shard 1, key `[2]` holds a put intent of
transaction 5 for bytes `[9]`, above a committed value `[4]` at version 2. -/
def stPutIntent : EngineState := fun s k =>
  if s = 1 ∧ k = [2] then
    [⟨TXN_INTENT_VERSION, some (encodeTxnIntent ⟨5, false, some [9]⟩)⟩,
     ⟨2, some [4]⟩]
  else []

/-- Concrete engine state: shard 1, key `[7]` holds a committed value `[4]`
at version 2 and nothing else. -/
def stOneValue : EngineState := fun s k =>
  if s = 1 ∧ k = [7] then [⟨2, some [4]⟩] else []

/-- The empty engine state. -/
def stEmpty : EngineState := fun _ _ => []

/-- A latch-guard stand-in whose `resolve_txn` always reports an aborted
foreign transaction. -/
def resolveNone : Resolver := fun _ _ _ => .ok none

/-! ## Theorems -/

/-! ### Byte-level integer encoding -/

lemma beNat_natToBe8 (n : Nat) (h : n < 18446744073709551616) :
    beNat (natToBe8 n) = n := by
  simp only [natToBe8, beNat, byteOf, List.foldl]
  omega

lemma natToBe8_length (n : Nat) : (natToBe8 n).length = 8 := rfl

lemma toI64_toNat_emod (v : Int) (h1 : -9223372036854775808 ≤ v)
    (h2 : v < 9223372036854775808) :
    toI64 ((v % 18446744073709551616).toNat) = v := by
  simp only [toI64]
  omega

lemma decode_i64_i64_to_be_bytes (v : Int) (h1 : -9223372036854775808 ≤ v)
    (h2 : v < 9223372036854775808) :
    decode_i64 (i64_to_be_bytes v) = some v := by
  have hlt : (v % 18446744073709551616).toNat < 18446744073709551616 := by omega
  simp only [decode_i64, i64_to_be_bytes, natToBe8_length, if_pos rfl, if_true,
    beNat_natToBe8 _ hlt, toI64_toNat_emod v h1 h2]

lemma toI64_range (n : Nat) (h : n < 18446744073709551616) :
    -9223372036854775808 ≤ toI64 n ∧ toI64 n < 9223372036854775808 := by
  simp only [toI64]
  omega

lemma wrapping_add_i64_range (a b : Int) :
    -9223372036854775808 ≤ wrapping_add_i64 a b ∧
      wrapping_add_i64 a b < 9223372036854775808 := by
  refine toI64_range _ ?_
  omega

lemma decodeTxnIntent_encodeTxnIntent (it : TxnIntent)
    (h : it.start_version < 18446744073709551616) :
    decodeTxnIntent (encodeTxnIntent it) = some it := by
  obtain ⟨sv, d, v⟩ := it
  have hb : beNat (natToBe8 sv) = sv := beNat_natToBe8 sv h
  cases v with
  | none =>
    cases d with
    | false =>
      simp only [encodeTxnIntent, natToBe8, decodeTxnIntent, List.cons_append,
        List.nil_append, if_neg, Bool.false_eq_true, if_false]
      simp only [natToBe8] at hb
      simp [hb]
    | true =>
      simp only [encodeTxnIntent, natToBe8, decodeTxnIntent, List.cons_append,
        List.nil_append]
      simp only [natToBe8] at hb
      simp [hb]
  | some value =>
    cases d with
    | false =>
      simp only [encodeTxnIntent, natToBe8, decodeTxnIntent, List.cons_append,
        List.nil_append]
      simp only [natToBe8] at hb
      simp [hb]
    | true =>
      simp only [encodeTxnIntent, natToBe8, decodeTxnIntent, List.cons_append,
        List.nil_append]
      simp only [natToBe8] at hb
      simp [hb]

/-! ### C10: `write_intent` with an absent `write` field -/

/-- C10: for every `WriteIntentRequest` whose `write` field is absent,
`write_intent` returns an `InvalidArgument` error.  An error return of
`write_intent` carries no write batch (its result type only yields a batch in
the `ok` case), so no state is mutated. -/
theorem claim_C10 (resolve : Resolver) (st : EngineState) (sv : Nat) :
    write_intent resolve st ⟨sv, none⟩ =
      .error (.InvalidArgument "`write` is required") := rfl

/-! ### C9: the etcd KV shim -/

/-- C9 counterexample: the claim says every shim method returns an
`Unimplemented` status; in the code every body is `todo!()`, which panics
("not yet implemented") instead of returning a status.  At the concrete empty
requests, no method's outcome is `status unimplemented`. -/
theorem claim_C9_counterexample :
    kv_range ⟨[]⟩ = .panicked "not yet implemented" ∧
    kv_range ⟨[]⟩ ≠ .status .unimplemented ∧
    kv_put ⟨[], []⟩ ≠ .status .unimplemented ∧
    kv_delete_range ⟨[]⟩ ≠ .status .unimplemented ∧
    kv_txn ⟨()⟩ ≠ .status .unimplemented := by
  refine ⟨rfl, ?_, ?_, ?_, ?_⟩ <;> decide

/-- C9 amended: every method of the etcd-compatibility KV shim (range, put,
delete_range, txn), for every request, panics via `todo!` ("not yet
implemented") rather than performing the operation; in particular no method
ever returns a response. -/
theorem claim_C9 (r1 : RangeRequest) (r2 : EtcdPutRequest)
    (r3 : DeleteRangeRequest) (r4 : TxnRequest) :
    kv_range r1 = .panicked "not yet implemented" ∧
    kv_put r2 = .panicked "not yet implemented" ∧
    kv_delete_range r3 = .panicked "not yet implemented" ∧
    kv_txn r4 = .panicked "not yet implemented" :=
  ⟨rfl, rfl, rfl, rfl⟩

/-! ### C5: the `AddI64` put type -/

/-- C5: for every i64 `v` and delta `δ`, `AddI64` stores the 8-byte big-endian
encoding of `wrapping_add(v, δ)`; an absent previous value or a tombstone
reads as 0; a request value or existing content that does not decode as an
i64 fails with `InvalidArgument`. -/
theorem claim_C5 (v δ : Int) (ver : Nat) (input prevc : Bytes)
    (prev : Option Value) :
    (-9223372036854775808 ≤ v → v < 9223372036854775808 →
     -9223372036854775808 ≤ δ → δ < 9223372036854775808 →
      apply_put_op .AddI64 (some ⟨ver, some (i64_to_be_bytes v)⟩) (i64_to_be_bytes δ) =
        .ok (some (i64_to_be_bytes (wrapping_add_i64 v δ))) ∧
      (i64_to_be_bytes (wrapping_add_i64 v δ)).length = 8) ∧
    (-9223372036854775808 ≤ δ → δ < 9223372036854775808 →
      apply_put_op .AddI64 none (i64_to_be_bytes δ) =
        .ok (some (i64_to_be_bytes (wrapping_add_i64 0 δ))) ∧
      apply_put_op .AddI64 (some ⟨ver, none⟩) (i64_to_be_bytes δ) =
        .ok (some (i64_to_be_bytes (wrapping_add_i64 0 δ)))) ∧
    (decode_i64 input = none →
      apply_put_op .AddI64 prev input =
        .error (.InvalidArgument "input value is not a valid i64")) ∧
    (decode_i64 prevc = none → ∀ d, decode_i64 input = some d →
      apply_put_op .AddI64 (some ⟨ver, some prevc⟩) input =
        .error (.InvalidArgument "the exists value is not a valid i64")) := by
  refine ⟨?_, ?_, ?_, ?_⟩
  · intro hv1 hv2 hd1 hd2
    refine ⟨?_, natToBe8_length _⟩
    simp only [apply_put_op, decode_i64_i64_to_be_bytes δ hd1 hd2, Option.bind,
      decode_i64_i64_to_be_bytes v hv1 hv2]
  · intro hd1 hd2
    constructor <;>
      simp only [apply_put_op, decode_i64_i64_to_be_bytes δ hd1 hd2, Option.bind]
  · intro hbad
    simp only [apply_put_op, hbad]
  · intro hbad d hd
    simp only [apply_put_op, hd, Option.bind, hbad]

/-- C5 witness: the theorem evaluated at `v = 5`, `δ = -3` (result bytes
encode 2) and at the one-byte invalid inputs. -/
theorem claim_C5_witness :
    apply_put_op .AddI64 (some ⟨1, some (i64_to_be_bytes 5)⟩) (i64_to_be_bytes (-3)) =
      .ok (some (i64_to_be_bytes (wrapping_add_i64 5 (-3)))) ∧
    apply_put_op .AddI64 none (i64_to_be_bytes (-3)) =
      .ok (some (i64_to_be_bytes (wrapping_add_i64 0 (-3)))) ∧
    apply_put_op .AddI64 none [1] =
      .error (.InvalidArgument "input value is not a valid i64") ∧
    apply_put_op .AddI64 (some ⟨1, some [1]⟩) (i64_to_be_bytes (-3)) =
      .error (.InvalidArgument "the exists value is not a valid i64") := by
  have h1 := claim_C5 5 (-3) 1 [1] [1] none
  have h2 := claim_C5 5 (-3) 1 (i64_to_be_bytes (-3)) [1] none
  exact ⟨(h2.1 (by decide) (by decide) (by decide) (by decide)).1,
         (h2.2.1 (by decide) (by decide)).1,
         h1.2.2.1 (by decide),
         h2.2.2.2 (by decide) (-3) (by decide)⟩

/-! ### C8: `HeartbeatQueue::try_schedule` -/

lemma hbLookup_cons (e : Nat × Nat) (rest : List (Nat × Nat)) (x : Nat) :
    hbLookup (e :: rest) x = if e.1 = x then some e.2 else hbLookup rest x := rfl

lemma hbUpdate_cons (e : Nat × Nat) (rest : List (Nat × Nat)) (node w : Nat) :
    hbUpdate (e :: rest) node w =
      (if e.1 = node then (node, w) else e) :: hbUpdate rest node w := rfl

lemma hbLookup_hbUpdate (m : List (Nat × Nat)) (node w x : Nat) :
    hbLookup (hbUpdate m node w) x =
      if x = node then (hbLookup m node).map (fun _ => w) else hbLookup m x := by
  induction m with
  | nil => by_cases h2 : x = node <;> simp [hbLookup, hbUpdate, h2]
  | cons e rest ih =>
    rw [hbUpdate_cons]
    by_cases h1 : e.1 = node <;> by_cases h2 : x = node
    · simp_all [hbLookup_cons]
    · have h2' : ¬node = x := fun h => h2 h.symm
      simp_all [hbLookup_cons]
    · simp_all [hbLookup_cons]
    · have h2' : ¬node = x := fun h => h2 h.symm
      simp_all [hbLookup_cons]

lemma hbLookup_hbInsert (m : List (Nat × Nat)) (node w x : Nat) :
    hbLookup (hbInsert m node w) x =
      match hbLookup m x with
      | some w0 => some w0
      | none => if x = node then some w else none := by
  induction m with
  | nil =>
    by_cases h : x = node
    · subst h
      simp [hbLookup, hbInsert]
    · have h' : ¬node = x := fun hc => h hc.symm
      simp [hbLookup, hbInsert, h, h']
  | cons e rest ih =>
    by_cases he : e.1 = x
    · simp [hbLookup, hbInsert, he]
    · simp only [hbLookup, hbInsert, List.cons_append, if_neg he] at *
      exact ih

lemma try_schedule_step_enable (c : HBQueueCore) (node w : Nat) :
    (try_schedule_step c node w).enable = c.enable := by
  simp only [try_schedule_step]
  cases hbLookup c.node_scheduled node <;> simp
  split <;> rfl

lemma try_schedule_step_lookup_self (c : HBQueueCore) (node w : Nat) :
    hbLookup (try_schedule_step c node w).node_scheduled node =
      some (match hbLookup c.node_scheduled node with
            | some w0 => if w < w0 then w else w0
            | none => w) := by
  simp only [try_schedule_step]
  cases h : hbLookup c.node_scheduled node with
  | none => simp [hbLookup_hbInsert, h]
  | some w0 =>
    by_cases hw : w < w0
    · simp [hw, hbLookup_hbUpdate, h]
    · simp [hw, h]

lemma try_schedule_step_lookup_other (c : HBQueueCore) (node w x : Nat)
    (hx : x ≠ node) :
    hbLookup (try_schedule_step c node w).node_scheduled x =
      hbLookup c.node_scheduled x := by
  simp only [try_schedule_step]
  cases h : hbLookup c.node_scheduled node with
  | none =>
    simp only [hbLookup_hbInsert, if_neg hx]
    cases hbLookup c.node_scheduled x <;> rfl
  | some w0 =>
    by_cases hw : w < w0
    · simp [hw, hbLookup_hbUpdate, hx]
    · simp [hw]

lemma try_schedule_fold_lookup (tasks : List HeartbeatTask) (c : HBQueueCore)
    (w node : Nat) :
    hbLookup ((tasks.foldl (fun c task => try_schedule_step c task.node_id w) c)).node_scheduled node =
      if node ∈ tasks.map HeartbeatTask.node_id then
        some (match hbLookup c.node_scheduled node with
              | some w0 => if w < w0 then w else w0
              | none => w)
      else hbLookup c.node_scheduled node := by
  induction tasks generalizing c with
  | nil => simp
  | cons t rest ih =>
    simp only [List.foldl_cons, List.map_cons, List.mem_cons]
    rw [ih]
    by_cases ht : node = t.node_id
    · rw [ht]
      by_cases hm : t.node_id ∈ rest.map HeartbeatTask.node_id
      · rw [if_pos hm, if_pos (Or.inl rfl), try_schedule_step_lookup_self]
        cases h : hbLookup c.node_scheduled t.node_id with
        | none => simp
        | some w0 =>
          by_cases hw : w < w0 <;> simp [hw]
      · rw [if_neg hm, if_pos (Or.inl rfl), try_schedule_step_lookup_self]
    · have hstep := try_schedule_step_lookup_other c t.node_id w node ht
      by_cases hm : node ∈ rest.map HeartbeatTask.node_id
      · rw [if_pos hm, if_pos (Or.inr hm), hstep]
      · rw [if_neg hm, hstep, if_neg (by simp [ht, hm])]

/-- C8 counterexample: the claim says a task whose node already has an entry
with `when ≥` the scheduled deadline is "inserted at `when`"; in the code
that case is a no-op — the earlier deadline is left in place and nothing is
inserted.  Concretely, scheduling node 1 at time 9 while it is scheduled at
time 5 leaves the queue state unchanged. -/
theorem claim_C8_counterexample :
    try_schedule ⟨true, [(1, 5)]⟩ [⟨1⟩] 9 = ⟨true, [(1, 5)]⟩ ∧
    hbLookup (try_schedule ⟨true, [(1, 5)]⟩ [⟨1⟩] 9).node_scheduled 1 ≠ some 9 := by
  constructor <;> decide

/-- C8 amended: `try_schedule` is a no-op while the queue is disabled;
otherwise, for each node named by a task: an existing entry is reset to
`when` exactly when `when` is earlier than its scheduled deadline (and left
in place otherwise), and a node without an entry is inserted at `when`;
nodes not named by any task are untouched. -/
theorem claim_C8 (core : HBQueueCore) (tasks : List HeartbeatTask)
    (whenAt node : Nat) :
    (core.enable = false → try_schedule core tasks whenAt = core) ∧
    (core.enable = true →
      (node ∈ tasks.map HeartbeatTask.node_id →
        hbLookup (try_schedule core tasks whenAt).node_scheduled node =
          some (match hbLookup core.node_scheduled node with
                | some w0 => if whenAt < w0 then whenAt else w0
                | none => whenAt)) ∧
      (node ∉ tasks.map HeartbeatTask.node_id →
        hbLookup (try_schedule core tasks whenAt).node_scheduled node =
          hbLookup core.node_scheduled node)) := by
  refine ⟨fun hd => ?_, fun he => ⟨fun hm => ?_, fun hm => ?_⟩⟩
  · simp [try_schedule, hd]
  · simp only [try_schedule, he, if_pos]
    rw [try_schedule_fold_lookup, if_pos hm]
  · simp only [try_schedule, he, if_pos]
    rw [try_schedule_fold_lookup, if_neg hm]

/-- C8 witness: the theorem applied at a disabled queue, at an enabled queue
with an earlier `when` (entry reset from 5 to 3), and at a fresh node
(inserted at 9). -/
theorem claim_C8_witness :
    try_schedule ⟨false, [(1, 5)]⟩ [⟨1⟩] 3 = ⟨false, [(1, 5)]⟩ ∧
    hbLookup (try_schedule ⟨true, [(1, 5)]⟩ [⟨1⟩] 3).node_scheduled 1 = some 3 ∧
    hbLookup (try_schedule ⟨true, []⟩ [⟨2⟩] 9).node_scheduled 2 = some 9 := by
  refine ⟨(claim_C8 ⟨false, [(1, 5)]⟩ [⟨1⟩] 3 1).1 rfl, ?_, ?_⟩
  · have h := ((claim_C8 ⟨true, [(1, 5)]⟩ [⟨1⟩] 3 1).2 rfl).1 (by decide)
    exact h.trans (by decide)
  · have h := ((claim_C8 ⟨true, []⟩ [⟨2⟩] 9 2).2 rfl).1 (by decide)
    exact h.trans (by decide)

/-! ### C7: node lifecycle transitions -/

lemma get_node_update_node (t : NodeTable) (node_id : Nat) (s : NodeStatus)
    (h : (get_node t node_id).isSome) :
    get_node (update_node t node_id s) node_id = some s := by
  induction t with
  | nil => simp [get_node] at h
  | cons e rest ih =>
    by_cases he : e.1 = node_id
    · simp [get_node, update_node, he]
    · simp only [get_node, update_node, List.map_cons, if_neg he] at h ⊢
      exact ih h

/-- C7: `cordon_node` succeeds (setting `Cordoned`) exactly from `Active`;
`uncordon_node` succeeds (setting `Active`) exactly from `Cordoned`,
`Drained` or `Decommissioned`; `begin_drain` on the current root leader
enqueues `ShedRoot` and refuses, otherwise it succeeds (setting `Draining`
and enqueueing `ShedLeader`) exactly from `Cordoned`; every refusal is an
`InvalidArgument` error leaving the node table unchanged. -/
theorem claim_C7 (t : NodeTable) (current_node_id node_id : Nat)
    (st : NodeStatus) (h : get_node t node_id = some st) :
    ((st = .Active →
        cordon_node t node_id = (.ok (), update_node t node_id .Cordoned) ∧
        get_node (cordon_node t node_id).2 node_id = some .Cordoned) ∧
     (st ≠ .Active →
        ∃ msg, cordon_node t node_id = (.error (.InvalidArgument msg), t))) ∧
    ((st = .Cordoned ∨ st = .Drained ∨ st = .Decommissioned →
        uncordon_node t node_id = (.ok (), update_node t node_id .Active) ∧
        get_node (uncordon_node t node_id).2 node_id = some .Active) ∧
     (¬(st = .Cordoned ∨ st = .Drained ∨ st = .Decommissioned) →
        ∃ msg, uncordon_node t node_id = (.error (.InvalidArgument msg), t))) ∧
    ((current_node_id = node_id →
        begin_drain current_node_id t node_id =
          (.error (.InvalidArgument "node is root leader, try again later"), t,
           [.ShedRoot node_id])) ∧
     (current_node_id ≠ node_id → st = .Cordoned →
        begin_drain current_node_id t node_id =
          (.ok (), update_node t node_id .Draining, [.ShedLeader node_id]) ∧
        get_node (begin_drain current_node_id t node_id).2.1 node_id =
          some .Draining) ∧
     (current_node_id ≠ node_id → st ≠ .Cordoned →
        ∃ msg, begin_drain current_node_id t node_id =
          (.error (.InvalidArgument msg), t, []))) := by
  have hsome : (get_node t node_id).isSome := by rw [h]; rfl
  refine ⟨⟨fun ha => ?_, fun ha => ?_⟩, ⟨fun hu => ?_, fun hu => ?_⟩,
          ⟨fun hc => ?_, fun hc hs => ?_, fun hc hs => ?_⟩⟩
  · subst ha
    refine ⟨by simp [cordon_node, h], ?_⟩
    simp only [cordon_node, h, if_pos rfl]
    exact get_node_update_node t node_id _ hsome
  · refine ⟨"node already cordoned", ?_⟩
    simp [cordon_node, h, ha]
  · have hok : (st = NodeStatus.Cordoned ∨ st = NodeStatus.Drained ∨
        st = NodeStatus.Decommissioned) = True := by simp [hu]
    refine ⟨by simp [uncordon_node, h, hok], ?_⟩
    simp only [uncordon_node, h, hok, if_true]
    exact get_node_update_node t node_id _ hsome
  · refine ⟨"node status unsupport uncordon", ?_⟩
    simp [uncordon_node, h, hu]
  · simp [begin_drain, hc]
  · subst hs
    refine ⟨by simp [begin_drain, hc, h], ?_⟩
    simp only [begin_drain, if_neg hc, h, if_pos rfl]
    exact get_node_update_node t node_id _ hsome
  · refine ⟨"only in cordoned status node can be drain", ?_⟩
    simp [begin_drain, hc, h, hs]

/-- C7 witness: the theorem applied to the concrete table
`[(1, Active), (2, Cordoned), (3, Draining)]`: cordoning node 1, failing to
cordon node 3, draining node 2 from a leader on node 9, and refusing to drain
node 2 when node 2 itself is the leader (enqueueing `ShedRoot`). -/
theorem claim_C7_witness :
    cordon_node [(1, .Active), (2, .Cordoned), (3, .Draining)] 1 =
      (.ok (), [(1, .Cordoned), (2, .Cordoned), (3, .Draining)]) ∧
    (∃ msg, cordon_node [(1, .Active), (2, .Cordoned), (3, .Draining)] 3 =
      (.error (.InvalidArgument msg), [(1, .Active), (2, .Cordoned), (3, .Draining)])) ∧
    begin_drain 9 [(1, .Active), (2, .Cordoned), (3, .Draining)] 2 =
      (.ok (), [(1, .Active), (2, .Draining), (3, .Draining)], [.ShedLeader 2]) ∧
    begin_drain 2 [(1, .Active), (2, .Cordoned), (3, .Draining)] 2 =
      (.error (.InvalidArgument "node is root leader, try again later"),
       [(1, .Active), (2, .Cordoned), (3, .Draining)], [.ShedRoot 2]) := by
  refine ⟨?_, ?_, ?_, ?_⟩
  · have h := ((claim_C7 [(1, .Active), (2, .Cordoned), (3, .Draining)] 9 1
      .Active (by decide)).1.1 rfl).1
    exact h.trans (by decide)
  · obtain ⟨msg, hmsg⟩ := (claim_C7 [(1, .Active), (2, .Cordoned), (3, .Draining)] 9 3
      .Draining (by decide)).1.2 (by decide)
    exact ⟨msg, hmsg⟩
  · have h := (((claim_C7 [(1, .Active), (2, .Cordoned), (3, .Draining)] 9 2
      .Cordoned (by decide)).2.2.2.1 (by decide) rfl)).1
    exact h.trans (by decide)
  · exact (claim_C7 [(1, .Active), (2, .Cordoned), (3, .Draining)] 2 2
      .Cordoned (by decide)).2.2.1 rfl

/-! ### C4: the transaction-id allocator -/

lemma stepEvent_next_mono (s : AllocState) (e : RootEvent) :
    s.next_txn_id ≤ (stepEvent s e).1.next_txn_id := by
  cases e with
  | alloc n =>
    simp only [stepEvent, alloc_txn_id]
    by_cases h0 : s.max_txn_id = 0
    · simp [h0]
    · by_cases hb : s.max_txn_id < s.next_txn_id + n
      · simp [h0, hb]
      · simp [h0, hb]
  | bump now => simp [stepEvent, bump_txn_id]

lemma stepEvent_inv (s : AllocState) (e : RootEvent)
    (h : s.max_txn_id = s.persisted_txn_id) :
    (stepEvent s e).1.max_txn_id = (stepEvent s e).1.persisted_txn_id := by
  cases e with
  | alloc n =>
    simp only [stepEvent, alloc_txn_id]
    by_cases h0 : s.max_txn_id = 0
    · rw [if_pos h0]
      exact h
    · rw [if_neg h0]
      by_cases hb : s.max_txn_id < s.next_txn_id + n
      · rw [if_pos hb]
        exact h
      · rw [if_neg hb]
        exact h
  | bump now => simp [stepEvent, bump_txn_id]

lemma stepEvent_persisted_mono (s : AllocState) (e : RootEvent)
    (h : s.max_txn_id = s.persisted_txn_id) :
    s.persisted_txn_id ≤ (stepEvent s e).1.persisted_txn_id := by
  cases e with
  | alloc n =>
    simp only [stepEvent, alloc_txn_id]
    by_cases h0 : s.max_txn_id = 0
    · simp [h0]
    · by_cases hb : s.max_txn_id < s.next_txn_id + n
      · simp [h0, hb]
      · simp [h0, hb]
  | bump now =>
    simp only [stepEvent, bump_txn_id]
    have hmx : s.max_txn_id ≤ Nat.max s.max_txn_id now := Nat.le_max_left _ _
    omega

lemma stepEvent_alloc_ok (s : AllocState) (n r n' : Nat) (s' : AllocState)
    (h : stepEvent s (.alloc n) = (s', some (r, n'))) :
    r = s.next_txn_id ∧ n' = n ∧ s'.next_txn_id = r + n ∧
      r + n ≤ s.max_txn_id ∧ s'.max_txn_id = s.max_txn_id ∧
      s'.persisted_txn_id = s.persisted_txn_id := by
  simp only [stepEvent, alloc_txn_id] at h
  by_cases h0 : s.max_txn_id = 0
  · simp [h0] at h
  · by_cases hb : s.max_txn_id < s.next_txn_id + n
    · simp [h0, hb] at h
    · simp only [h0, hb, if_false, if_neg] at h
      obtain ⟨hs, hr⟩ := Prod.mk.injEq .. ▸ h
      cases hr
      refine ⟨rfl, rfl, ?_, by omega, ?_, ?_⟩ <;> simp [← hs]

lemma runTrace_next_mono (s : AllocState) (es : List RootEvent) :
    s.next_txn_id ≤ (runTrace s es).1.next_txn_id := by
  induction es generalizing s with
  | nil => simp [runTrace]
  | cons e rest ih =>
    simp only [runTrace]
    exact le_trans (stepEvent_next_mono s e) (ih (stepEvent s e).1)

lemma runTrace_inv (s : AllocState) (es : List RootEvent)
    (h : s.max_txn_id = s.persisted_txn_id) :
    (runTrace s es).1.max_txn_id = (runTrace s es).1.persisted_txn_id := by
  induction es generalizing s with
  | nil => simpa [runTrace] using h
  | cons e rest ih =>
    simp only [runTrace]
    exact ih (stepEvent s e).1 (stepEvent_inv s e h)

lemma runTrace_persisted_mono (s : AllocState) (es : List RootEvent)
    (h : s.max_txn_id = s.persisted_txn_id) :
    s.persisted_txn_id ≤ (runTrace s es).1.persisted_txn_id := by
  induction es generalizing s with
  | nil => simp [runTrace]
  | cons e rest ih =>
    simp only [runTrace]
    exact le_trans (stepEvent_persisted_mono s e h)
      (ih (stepEvent s e).1 (stepEvent_inv s e h))

lemma runTrace_alloc_bounds (s : AllocState) (es : List RootEvent) :
    ∀ a ∈ (runTrace s es).2,
      s.next_txn_id ≤ a.1 ∧ a.1 + a.2 ≤ (runTrace s es).1.next_txn_id := by
  induction es generalizing s with
  | nil => simp [runTrace]
  | cons e rest ih =>
    intro a ha
    simp only [runTrace] at ha ⊢
    rcases List.mem_append.1 ha with hl | hr
    · cases e with
      | bump now => simp [stepEvent] at hl
      | alloc n =>
        rcases hs : stepEvent s (.alloc n) with ⟨s', o⟩
        rw [hs] at hl
        cases o with
        | none => simp at hl
        | some p =>
          simp only [Option.toList, List.mem_singleton] at hl
          subst hl
          obtain ⟨h1, h2, h3, h4, _, _⟩ := stepEvent_alloc_ok s n a.1 a.2 s' hs
          refine ⟨le_of_eq h1.symm, ?_⟩
          have hnext := runTrace_next_mono s' rest
          show a.1 + a.2 ≤ (runTrace s' rest).1.next_txn_id
          omega
    · have hb := ih (stepEvent s e).1 a hr
      have hm := stepEvent_next_mono s e
      exact ⟨le_trans hm hb.1, hb.2⟩

lemma runTrace_alloc_le_persisted (s : AllocState) (es : List RootEvent)
    (h : s.max_txn_id = s.persisted_txn_id) :
    ∀ a ∈ (runTrace s es).2, a.1 + a.2 ≤ (runTrace s es).1.persisted_txn_id := by
  induction es generalizing s with
  | nil => simp [runTrace]
  | cons e rest ih =>
    intro a ha
    simp only [runTrace] at ha ⊢
    rcases List.mem_append.1 ha with hl | hr
    · cases e with
      | bump now => simp [stepEvent] at hl
      | alloc n =>
        rcases hs : stepEvent s (.alloc n) with ⟨s', o⟩
        rw [hs] at hl
        cases o with
        | none => simp at hl
        | some p =>
          simp only [Option.toList, List.mem_singleton] at hl
          subst hl
          obtain ⟨h1, h2, h3, h4, h5, h6⟩ := stepEvent_alloc_ok s n a.1 a.2 s' hs
          have hinv' : s'.max_txn_id = s'.persisted_txn_id := by
            rw [h5, h6, h]
          have hp := runTrace_persisted_mono s' rest hinv'
          show a.1 + a.2 ≤ (runTrace s' rest).1.persisted_txn_id
          omega
    · have := ih (stepEvent s e).1 (stepEvent_inv s e h) a hr
      exact this

lemma runTrace_pairwise (s : AllocState) (es : List RootEvent) :
    List.Pairwise (fun a b => a.1 + a.2 ≤ b.1) (runTrace s es).2 := by
  induction es generalizing s with
  | nil => simp [runTrace]
  | cons e rest ih =>
    simp only [runTrace]
    rcases hs : stepEvent s e with ⟨s', o⟩
    cases o with
    | none => simpa using ih s'
    | some p =>
      simp only [Option.toList, List.singleton_append, List.pairwise_cons]
      refine ⟨fun b hb => ?_, ih s'⟩
      cases e with
      | bump now => simp [stepEvent] at hs
      | alloc n =>
        obtain ⟨h1, h2, h3, _, _, _⟩ := stepEvent_alloc_ok s n p.1 p.2 s' hs
        have hb' := (runTrace_alloc_bounds s' rest b hb).1
        omega

/-- C4 counterexample: the claim says returned start values are strictly
increasing over successful calls, for every `n`; with `n = 0` a successful
call returns the cursor without advancing it, so two successive successful
`alloc_txn_id(0)` calls both return 5. -/
theorem claim_C4_counterexample :
    alloc_txn_id ⟨5, 10, 10⟩ 0 = .ok 5 ⟨5, 10, 10⟩ ∧
    (runTrace ⟨5, 10, 10⟩ [.alloc 0, .alloc 0]).2 = [(5, 0), (5, 0)] := by
  constructor <;> rfl

/-- C4 amended: `alloc_txn_id(n)` fails with a `NotLeader` error when
`max_txn_id` is 0; the ranges of successful calls are mutually disjoint
and their starts non-decreasing in allocation order, strictly increasing
between calls that request at least one id; across a leader handoff
(new leader loads the persisted ceiling and bumps once), every id issued by
the new leader is strictly greater than any id allocated by the previous
leader. -/
theorem claim_C4 :
    (∀ (s : AllocState) (n : Nat), s.max_txn_id = 0 →
      alloc_txn_id s n = .notLeader) ∧
    (∀ (s : AllocState) (events : List RootEvent),
      List.Pairwise (fun a b => a.1 + a.2 ≤ b.1 ∧ (1 ≤ a.2 → a.1 < b.1))
        (runTrace s events).2) ∧
    (∀ (s : AllocState), s.max_txn_id = s.persisted_txn_id →
      ∀ (events : List RootEvent) (now : Nat) (events2 : List RootEvent),
      ∀ a ∈ (runTrace s events).2, ∀ x, a.1 ≤ x → x < a.1 + a.2 →
      ∀ b ∈ (runTrace (step_leader (runTrace s events).1.persisted_txn_id now)
               events2).2,
        x < b.1) := by
  refine ⟨fun s n h0 => by simp [alloc_txn_id, h0], fun s events => ?_, ?_⟩
  · exact (runTrace_pairwise s events).imp (fun h => ⟨h, fun h1 => by omega⟩)
  · intro s hinv events now events2 a ha x hx1 hx2 b hb
    have hle := runTrace_alloc_le_persisted s events hinv a ha
    set p := (runTrace s events).1.persisted_txn_id with hp
    have hs2 : (step_leader p now).next_txn_id = p := rfl
    have hbound := (runTrace_alloc_bounds (step_leader p now) events2 b hb).1
    rw [hs2] at hbound
    omega

/-- C4 witness: the theorem applied at concrete states: a zeroed ceiling
yields `NotLeader`; the trace `[alloc 2, alloc 3]` from state (1, 10, 10)
allocates the chained ranges `[1, 3)` and `[3, 6)`; after a handoff at
persisted ceiling 10, the new leader's allocation starts at 10, above id 2
of the old range `[1, 3)`. -/
theorem claim_C4_witness :
    alloc_txn_id ⟨7, 0, 0⟩ 1 = .notLeader ∧
    (runTrace ⟨1, 10, 10⟩ [.alloc 2, .alloc 3]).2 = [(1, 2), (3, 3)] ∧
    (runTrace (step_leader (runTrace ⟨1, 10, 10⟩ [.alloc 2]).1.persisted_txn_id 0)
      [.alloc 1]).2 = [(10, 1)] ∧
    (2 : Nat) < 10 := by
  refine ⟨claim_C4.1 ⟨7, 0, 0⟩ 1 rfl, by rfl, by rfl, ?_⟩
  exact claim_C4.2.2 ⟨1, 10, 10⟩ rfl [.alloc 2] 0 [.alloc 1] (1, 2) (by decide)
    2 (by decide) (by decide) (10, 1) (by decide)

/-! ### C3: condition failure surfaces as `CasFailed` -/

lemma stepDelete_cas (st : EngineState) (resolve : Resolver) (sv shard idx : Nat)
    (del : DeleteRequest) (prev : Option Value) (c : Nat)
    (hobs : observeWrite st resolve sv shard del.key = .ok (false, prev))
    (hc : eval_conditions prev del.conditions = some c) :
    stepDelete st resolve sv shard idx del = .error (.CasFailed idx c prev) := by
  simp [stepDelete, hobs, hc, bind, Except.bind, throw, throwThe, MonadExceptOf.throw]

lemma stepPut_cas (st : EngineState) (resolve : Resolver)
    (sv shard num_deletes idx : Nat) (put : PutRequest) (prev : Option Value)
    (c : Nat)
    (hobs : observeWrite st resolve sv shard put.key = .ok (false, prev))
    (hc : eval_conditions prev put.conditions = some c) :
    stepPut st resolve sv shard num_deletes idx put =
      .error (.CasFailed (num_deletes + idx) c prev) := by
  simp [stepPut, hobs, hc, bind, Except.bind, throw, throwThe, MonadExceptOf.throw]

lemma processDeletes_cons_ok (st : EngineState) (resolve : Resolver)
    (sv shard idx : Nat) (d : DeleteRequest) (rest : List DeleteRequest)
    (out : Option Mutation × WriteResponse)
    (h : stepDelete st resolve sv shard idx d = .ok out) :
    processDeletes st resolve sv shard idx (d :: rest) =
      match processDeletes st resolve sv shard (idx + 1) rest with
      | .ok (wb, wrs) => .ok (out.1.toList ++ wb, out.2 :: wrs)
      | .error e => .error e := by
  simp only [processDeletes, h, bind, Except.bind]
  rcases processDeletes st resolve sv shard (idx + 1) rest with e | ⟨wb, wrs⟩ <;> rfl

lemma processDeletes_cons_error (st : EngineState) (resolve : Resolver)
    (sv shard idx : Nat) (d : DeleteRequest) (rest : List DeleteRequest)
    (e : Error) (h : stepDelete st resolve sv shard idx d = .error e) :
    processDeletes st resolve sv shard idx (d :: rest) = .error e := by
  simp only [processDeletes, h, bind, Except.bind]

lemma processPuts_cons_ok (st : EngineState) (resolve : Resolver)
    (sv shard nd idx : Nat) (p : PutRequest) (rest : List PutRequest)
    (out : Option Mutation × WriteResponse)
    (h : stepPut st resolve sv shard nd idx p = .ok out) :
    processPuts st resolve sv shard nd idx (p :: rest) =
      match processPuts st resolve sv shard nd (idx + 1) rest with
      | .ok (wb, wrs) => .ok (out.1.toList ++ wb, out.2 :: wrs)
      | .error e => .error e := by
  simp only [processPuts, h, bind, Except.bind]
  rcases processPuts st resolve sv shard nd (idx + 1) rest with e | ⟨wb, wrs⟩ <;> rfl

lemma processPuts_cons_error (st : EngineState) (resolve : Resolver)
    (sv shard nd idx : Nat) (p : PutRequest) (rest : List PutRequest)
    (e : Error) (h : stepPut st resolve sv shard nd idx p = .error e) :
    processPuts st resolve sv shard nd idx (p :: rest) = .error e := by
  simp only [processPuts, h, bind, Except.bind]

lemma processDeletes_prefix_error (st : EngineState) (resolve : Resolver)
    (sv shard : Nat) (l1 : List DeleteRequest) (d : DeleteRequest)
    (l2 : List DeleteRequest) (e : Error) :
    ∀ idx0 : Nat,
    (∀ j, (hj : j < l1.length) →
      ∃ out, stepDelete st resolve sv shard (idx0 + j) (l1.get ⟨j, hj⟩) = .ok out) →
    stepDelete st resolve sv shard (idx0 + l1.length) d = .error e →
    processDeletes st resolve sv shard idx0 (l1 ++ d :: l2) = .error e := by
  induction l1 with
  | nil =>
    intro idx0 _ herr
    simp only [List.length_nil, Nat.add_zero] at herr
    exact processDeletes_cons_error st resolve sv shard idx0 d l2 e herr
  | cons a l1' ih =>
    intro idx0 hok herr
    obtain ⟨out, hout⟩ := hok 0 (by simp)
    rw [Nat.add_zero] at hout
    rw [List.cons_append,
      processDeletes_cons_ok st resolve sv shard idx0 a (l1' ++ d :: l2) out hout]
    rw [ih (idx0 + 1) (fun j hj => by
        have := hok (j + 1) (by simpa using Nat.succ_lt_succ hj)
        simpa [Nat.add_assoc, Nat.add_comm 1 j] using this)
      (by simpa [Nat.add_assoc, Nat.add_comm 1 l1'.length] using herr)]

lemma processPuts_prefix_error (st : EngineState) (resolve : Resolver)
    (sv shard nd : Nat) (l1 : List PutRequest) (p : PutRequest)
    (l2 : List PutRequest) (e : Error) :
    ∀ idx0 : Nat,
    (∀ j, (hj : j < l1.length) →
      ∃ out, stepPut st resolve sv shard nd (idx0 + j) (l1.get ⟨j, hj⟩) = .ok out) →
    stepPut st resolve sv shard nd (idx0 + l1.length) p = .error e →
    processPuts st resolve sv shard nd idx0 (l1 ++ p :: l2) = .error e := by
  induction l1 with
  | nil =>
    intro idx0 _ herr
    simp only [List.length_nil, Nat.add_zero] at herr
    exact processPuts_cons_error st resolve sv shard nd idx0 p l2 e herr
  | cons a l1' ih =>
    intro idx0 hok herr
    obtain ⟨out, hout⟩ := hok 0 (by simp)
    rw [Nat.add_zero] at hout
    rw [List.cons_append,
      processPuts_cons_ok st resolve sv shard nd idx0 a (l1' ++ p :: l2) out hout]
    rw [ih (idx0 + 1) (fun j hj => by
        have := hok (j + 1) (by simpa using Nat.succ_lt_succ hj)
        simpa [Nat.add_assoc, Nat.add_comm 1 j] using this)
      (by simpa [Nat.add_assoc, Nat.add_comm 1 l1'.length] using herr)]

lemma processDeletes_all_ok (st : EngineState) (resolve : Resolver)
    (sv shard : Nat) (l : List DeleteRequest) :
    ∀ idx0 : Nat,
    (∀ j, (hj : j < l.length) →
      ∃ out, stepDelete st resolve sv shard (idx0 + j) (l.get ⟨j, hj⟩) = .ok out) →
    ∃ res, processDeletes st resolve sv shard idx0 l = .ok res := by
  induction l with
  | nil => exact fun idx0 _ => ⟨([], []), rfl⟩
  | cons a l' ih =>
    intro idx0 hok
    obtain ⟨out, hout⟩ := hok 0 (by simp)
    rw [Nat.add_zero] at hout
    obtain ⟨⟨wb, wrs⟩, hres⟩ := ih (idx0 + 1) (fun j hj => by
      have := hok (j + 1) (by simpa using Nat.succ_lt_succ hj)
      simpa [Nat.add_assoc, Nat.add_comm 1 j] using this)
    refine ⟨(out.1.toList ++ wb, out.2 :: wrs), ?_⟩
    rw [processDeletes_cons_ok st resolve sv shard idx0 a l' out hout, hres]

lemma write_intent_deletes_error (resolve : Resolver) (st : EngineState)
    (sv : Nat) (w : ShardWriteRequest) (e : Error)
    (h : processDeletes st resolve sv w.shard_id 0 w.deletes = .error e) :
    write_intent resolve st ⟨sv, some w⟩ = .error e := by
  simp only [write_intent, h, bind, Except.bind]

lemma write_intent_puts_error (resolve : Resolver) (st : EngineState)
    (sv : Nat) (w : ShardWriteRequest) (resD : WriteBatch × List WriteResponse)
    (e : Error)
    (hd : processDeletes st resolve sv w.shard_id 0 w.deletes = .ok resD)
    (h : processPuts st resolve sv w.shard_id w.deletes.length 0 w.puts = .error e) :
    write_intent resolve st ⟨sv, some w⟩ = .error e := by
  simp only [write_intent, hd, h, bind, Except.bind]

/-- C3: when the first non-skipped write whose conditions fail is reached
(all earlier writes processed without error), `write_intent` returns
`CasFailed(idx, cond_idx, prev_value)`, where `idx` counts deletes first and
then `num_deletes +` the put's position, `cond_idx` is the index of the first
failing condition (`eval_conditions` yields the first failing index), and
`prev_value` is the observed previous value.  The error return carries no
write batch — `write_intent`'s result type only produces a batch in the `ok`
case — so no state is mutated. -/
theorem claim_C3 (st : EngineState) (resolve : Resolver)
    (req : WriteIntentRequest) (w : ShardWriteRequest)
    (hw : req.write = some w) :
    (∀ (l1 : List DeleteRequest) (d : DeleteRequest) (l2 : List DeleteRequest),
      w.deletes = l1 ++ d :: l2 →
      (∀ j, (hj : j < l1.length) →
        ∃ out, stepDelete st resolve req.start_version w.shard_id j
          (l1.get ⟨j, hj⟩) = .ok out) →
      ∀ prev, observeWrite st resolve req.start_version w.shard_id d.key =
          .ok (false, prev) →
      ∀ c, eval_conditions prev d.conditions = some c →
      write_intent resolve st req = .error (.CasFailed l1.length c prev)) ∧
    (∀ (p1 : List PutRequest) (p : PutRequest) (p2 : List PutRequest),
      w.puts = p1 ++ p :: p2 →
      (∀ j, (hj : j < w.deletes.length) →
        ∃ out, stepDelete st resolve req.start_version w.shard_id j
          (w.deletes.get ⟨j, hj⟩) = .ok out) →
      (∀ j, (hj : j < p1.length) →
        ∃ out, stepPut st resolve req.start_version w.shard_id
          w.deletes.length j (p1.get ⟨j, hj⟩) = .ok out) →
      ∀ prev, observeWrite st resolve req.start_version w.shard_id p.key =
          .ok (false, prev) →
      ∀ c, eval_conditions prev p.conditions = some c →
      write_intent resolve st req =
        .error (.CasFailed (w.deletes.length + p1.length) c prev)) := by
  obtain ⟨sv, wr⟩ := req
  cases hw
  constructor
  · intro l1 d l2 hsplit hpre prev hobs c hc
    have herr := stepDelete_cas st resolve sv w.shard_id l1.length d prev c hobs hc
    have := processDeletes_prefix_error st resolve sv w.shard_id l1 d l2
      (.CasFailed l1.length c prev) 0 (fun j hj => by simpa using hpre j hj)
      (by simpa using herr)
    rw [← hsplit] at this
    exact write_intent_deletes_error resolve st sv w _ this
  · intro p1 p p2 hsplit hdel hpre prev hobs c hc
    obtain ⟨resD, hresD⟩ := processDeletes_all_ok st resolve sv w.shard_id
      w.deletes 0 (fun j hj => by simpa using hdel j hj)
    have herr := stepPut_cas st resolve sv w.shard_id w.deletes.length
      p1.length p prev c hobs hc
    have := processPuts_prefix_error st resolve sv w.shard_id w.deletes.length
      p1 p p2 (.CasFailed (w.deletes.length + p1.length) c prev) 0
      (fun j hj => by simpa using hpre j hj) (by simpa using herr)
    rw [← hsplit] at this
    exact write_intent_puts_error resolve st sv w resD _ hresD this

/-- C3 witness: on an empty engine, a single put guarded by `ExpectExists`
fails its first condition with the observed previous value `none`, and a put
guarded by `ExpectNotExists` over an existing value fails with that value;
the reported index is `num_deletes + 0 = 0`. -/
theorem claim_C3_witness :
    write_intent resolveNone stEmpty
      ⟨3, some ⟨1, [⟨.None, [7], [9], [.ExpectExists], false⟩], []⟩⟩ =
      .error (.CasFailed 0 0 none) ∧
    write_intent resolveNone stOneValue
      ⟨3, some ⟨1, [⟨.None, [7], [9], [.ExpectNotExists], false⟩], []⟩⟩ =
      .error (.CasFailed 0 0 (some ⟨2, some [4]⟩)) := by
  constructor
  · exact (claim_C3 stEmpty resolveNone
      ⟨3, some ⟨1, [⟨.None, [7], [9], [.ExpectExists], false⟩], []⟩⟩
      ⟨1, [⟨.None, [7], [9], [.ExpectExists], false⟩], []⟩ rfl).2
      [] ⟨.None, [7], [9], [.ExpectExists], false⟩ [] rfl
      (fun j hj => by simp at hj) (fun j hj => by simp at hj)
      none (by decide) 0 (by decide)
  · exact (claim_C3 stOneValue resolveNone
      ⟨3, some ⟨1, [⟨.None, [7], [9], [.ExpectNotExists], false⟩], []⟩⟩
      ⟨1, [⟨.None, [7], [9], [.ExpectNotExists], false⟩], []⟩ rfl).2
      [] ⟨.None, [7], [9], [.ExpectNotExists], false⟩ [] rfl
      (fun j hj => by simp at hj) (fun j hj => by simp at hj)
      (some ⟨2, some [4]⟩) (by decide) 0 (by decide)

/-! ### C6: idempotent replay of a single write -/

lemma observeWrite_skip (st : EngineState) (resolve : Resolver)
    (sv shard : Nat) (key : Bytes) (intent : TxnIntent) (prev0 : Option Value)
    (hread : read_intent_and_next_key st sv shard key = .ok (some intent, prev0))
    (hsv : intent.start_version = sv) :
    observeWrite st resolve sv shard key = .ok (true, prev0) := by
  simp [observeWrite, hread, hsv, bind, Except.bind, pure, Except.pure]

lemma stepDelete_skip (st : EngineState) (resolve : Resolver)
    (sv shard idx : Nat) (del : DeleteRequest) (prev0 : Option Value)
    (hobs : observeWrite st resolve sv shard del.key = .ok (true, prev0)) :
    stepDelete st resolve sv shard idx del =
      .ok (none, ⟨if del.take_prev_value then prev0 else none⟩) := by
  simp [stepDelete, hobs, bind, Except.bind, pure, Except.pure]

lemma stepPut_skip (st : EngineState) (resolve : Resolver)
    (sv shard nd idx : Nat) (put : PutRequest) (prev0 : Option Value)
    (hobs : observeWrite st resolve sv shard put.key = .ok (true, prev0)) :
    stepPut st resolve sv shard nd idx put =
      .ok (none, ⟨if put.take_prev_value then prev0 else none⟩) := by
  simp [stepPut, hobs, bind, Except.bind, pure, Except.pure]

/-- C6: when a key already carries an intent with the same `start_version`
(idempotent replay), the write is skipped: no mutation is staged for it, its
conditions are not evaluated (the outcome is the same for every conditions
list — `del` and `put` below are arbitrary, so the result does not depend on
their `conditions`), and the reported `prev_value` is the record beneath the
intent when one is already resolved there and `take_prev_value` is set —
in particular `none` when nothing resolved lies beneath the intent. -/
theorem claim_C6 (st : EngineState) (resolve : Resolver) (sv shard : Nat)
    (key : Bytes) (intent : TxnIntent) (prev0 : Option Value)
    (hread : read_intent_and_next_key st sv shard key = .ok (some intent, prev0))
    (hsv : intent.start_version = sv) :
    (∀ (idx : Nat) (del : DeleteRequest), del.key = key →
      stepDelete st resolve sv shard idx del =
        .ok (none, ⟨if del.take_prev_value then prev0 else none⟩)) ∧
    (∀ (nd idx : Nat) (put : PutRequest), put.key = key →
      stepPut st resolve sv shard nd idx put =
        .ok (none, ⟨if put.take_prev_value then prev0 else none⟩)) ∧
    (∀ (put : PutRequest), put.key = key →
      write_intent resolve st ⟨sv, some ⟨shard, [put], []⟩⟩ =
        .ok (none, ⟨some ⟨[], [⟨if put.take_prev_value then prev0 else none⟩]⟩⟩)) ∧
    (∀ (del : DeleteRequest), del.key = key →
      write_intent resolve st ⟨sv, some ⟨shard, [], [del]⟩⟩ =
        .ok (none, ⟨some ⟨[⟨if del.take_prev_value then prev0 else none⟩], []⟩⟩)) := by
  have hobs : ∀ k, k = key → observeWrite st resolve sv shard k = .ok (true, prev0) :=
    fun k hk => hk ▸ observeWrite_skip st resolve sv shard key intent prev0 hread hsv
  refine ⟨fun idx del hk => stepDelete_skip st resolve sv shard idx del prev0
      (hobs del.key hk),
    fun nd idx put hk => stepPut_skip st resolve sv shard nd idx put prev0
      (hobs put.key hk),
    fun put hk => ?_, fun del hk => ?_⟩
  · have hstep := stepPut_skip st resolve sv shard 0 0 put prev0 (hobs put.key hk)
    simp [write_intent, processPuts, processDeletes, hstep, bind, Except.bind,
      pure, Except.pure]
  · have hstep := stepDelete_skip st resolve sv shard 0 del prev0 (hobs del.key hk)
    simp [write_intent, processPuts, processDeletes, hstep, bind, Except.bind,
      pure, Except.pure]

/-- C6 witness: the theorem applied to a key whose top is an intent of
transaction 3: a replayed put with arbitrary conditions is skipped; with a
resolved value beneath the intent and `take_prev_value` set, that value is
returned, and on a key with nothing beneath the intent the returned
`prev_value` is `none`. -/
theorem claim_C6_witness :
    write_intent resolveNone
      (fun s k => if s = 1 ∧ k = [7] then
        [⟨TXN_INTENT_VERSION, some (encodeTxnIntent ⟨3, false, some [9]⟩)⟩,
         ⟨2, some [4]⟩] else [])
      ⟨3, some ⟨1, [⟨.None, [7], [5], [.ExpectNotExists], true⟩], []⟩⟩ =
      .ok (none, ⟨some ⟨[], [⟨some ⟨2, some [4]⟩⟩]⟩⟩) ∧
    write_intent resolveNone
      (fun s k => if s = 1 ∧ k = [7] then
        [⟨TXN_INTENT_VERSION, some (encodeTxnIntent ⟨3, false, some [9]⟩)⟩] else [])
      ⟨3, some ⟨1, [⟨.None, [7], [5], [.ExpectNotExists], true⟩], []⟩⟩ =
      .ok (none, ⟨some ⟨[], [⟨none⟩]⟩⟩) := by
  constructor
  · have h := (claim_C6
      (fun s k => if s = 1 ∧ k = [7] then
        [⟨TXN_INTENT_VERSION, some (encodeTxnIntent ⟨3, false, some [9]⟩)⟩,
         ⟨2, some [4]⟩] else [])
      resolveNone 3 1 [7] ⟨3, false, some [9]⟩ (some ⟨2, some [4]⟩)
      (by decide) rfl).2.2.1 ⟨.None, [7], [5], [.ExpectNotExists], true⟩ rfl
    exact h.trans (by decide)
  · have h := (claim_C6
      (fun s k => if s = 1 ∧ k = [7] then
        [⟨TXN_INTENT_VERSION, some (encodeTxnIntent ⟨3, false, some [9]⟩)⟩] else [])
      resolveNone 3 1 [7] ⟨3, false, some [9]⟩ none
      (by decide) rfl).2.2.1 ⟨.None, [7], [5], [.ExpectNotExists], true⟩ rfl
    exact h.trans (by decide)

/-! ### C2: idempotency of `write_intent` -/

lemma read_intent_some (st : EngineState) (sv shard : Nat) (key : Bytes)
    (intent : TxnIntent) (prev0 : Option Value)
    (h : read_intent_and_next_key st sv shard key = .ok (some intent, prev0)) :
    ∃ e rest, st shard key = e :: rest ∧ e.version = TXN_INTENT_VERSION ∧
      ∃ c, e.content = some c ∧ decodeTxnIntent c = some intent ∧
        prev0 = rest.head? := by
  simp only [read_intent_and_next_key] at h
  cases hchain : st shard key with
  | nil =>
    rw [hchain] at h
    simp at h
  | cons e rest =>
    rw [hchain] at h
    dsimp only at h
    by_cases hv : e.version = TXN_INTENT_VERSION
    · rw [if_pos hv] at h
      cases hc : e.content with
      | none =>
        rw [hc] at h
        simp at h
      | some c =>
        rw [hc] at h
        dsimp only at h
        cases hd : decodeTxnIntent c with
        | none =>
          rw [hd] at h
          simp at h
        | some ti =>
          rw [hd] at h
          simp only [Except.ok.injEq, Prod.mk.injEq, Option.some.injEq] at h
          exact ⟨e, rest, rfl, hv, c, hc, by rw [hd, h.1], h.2.symm⟩
    · rw [if_neg hv] at h
      simp at h

lemma observeWrite_true_topMatches (st : EngineState) (resolve : Resolver)
    (sv shard : Nat) (key : Bytes) (prev : Option Value)
    (h : observeWrite st resolve sv shard key = .ok (true, prev)) :
    topMatchesIntent st shard key sv := by
  simp only [observeWrite, bind, Except.bind] at h
  rcases hread : read_intent_and_next_key st sv shard key with e | ⟨ti, prev0⟩
  · rw [hread] at h
    simp at h
  · rw [hread] at h
    dsimp only at h
    cases ti with
    | none => simp [pure, Except.pure] at h
    | some intent =>
      dsimp only at h
      by_cases hsv : intent.start_version ≠ sv
      · rw [if_pos hsv] at h
        rcases hres : resolve shard key intent with e | v
        · rw [hres] at h
          simp at h
        · rw [hres] at h
          dsimp only at h
          cases v <;> simp [pure, Except.pure] at h
      · rw [if_neg hsv] at h
        push_neg at hsv
        obtain ⟨e, rest, hchain, hver, c, hc, hd, _⟩ :=
          read_intent_some st sv shard key intent prev0 hread
        exact ⟨e, rest, hchain, hver, c, intent, hc, hd, hsv⟩

lemma stepDelete_ok_cases (st : EngineState) (resolve : Resolver)
    (sv shard idx : Nat) (del : DeleteRequest)
    (mutOpt : Option Mutation) (wr : WriteResponse)
    (h : stepDelete st resolve sv shard idx del = .ok (mutOpt, wr)) :
    (∃ it, mutOpt = some (.put shard del.key (encodeTxnIntent it)
        TXN_INTENT_VERSION) ∧ it.start_version = sv) ∨
    (mutOpt = none ∧ topMatchesIntent st shard del.key sv) := by
  simp only [stepDelete, bind, Except.bind] at h
  rcases hobs : observeWrite st resolve sv shard del.key with e | ⟨skip, prev⟩
  · rw [hobs] at h
    simp at h
  · rw [hobs] at h
    cases skip with
    | true =>
      simp only [if_pos, pure, Except.pure, Except.ok.injEq, Prod.mk.injEq] at h
      refine .inr ⟨h.1.symm, ?_⟩
      exact observeWrite_true_topMatches st resolve sv shard del.key prev hobs
    | false =>
      simp only [Bool.false_eq_true, if_false] at h
      cases hc : eval_conditions prev del.conditions with
      | some c =>
        rw [hc] at h
        simp [throw, throwThe, MonadExceptOf.throw] at h
      | none =>
        rw [hc] at h
        simp only [pure, Except.pure, Except.ok.injEq, Prod.mk.injEq] at h
        exact .inl ⟨TxnIntent.tombstone sv, h.1.symm, rfl⟩

lemma stepPut_ok_cases (st : EngineState) (resolve : Resolver)
    (sv shard nd idx : Nat) (put : PutRequest)
    (mutOpt : Option Mutation) (wr : WriteResponse)
    (h : stepPut st resolve sv shard nd idx put = .ok (mutOpt, wr)) :
    (∃ it, mutOpt = some (.put shard put.key (encodeTxnIntent it)
        TXN_INTENT_VERSION) ∧ it.start_version = sv) ∨
    (mutOpt = none ∧ topMatchesIntent st shard put.key sv) := by
  simp only [stepPut, bind, Except.bind] at h
  rcases hobs : observeWrite st resolve sv shard put.key with e | ⟨skip, prev⟩
  · rw [hobs] at h
    simp at h
  · rw [hobs] at h
    cases skip with
    | true =>
      simp only [if_pos, pure, Except.pure, Except.ok.injEq, Prod.mk.injEq] at h
      refine .inr ⟨h.1.symm, ?_⟩
      exact observeWrite_true_topMatches st resolve sv shard put.key prev hobs
    | false =>
      simp only [Bool.false_eq_true, if_false] at h
      cases hc : eval_conditions prev put.conditions with
      | some c =>
        rw [hc] at h
        simp [throw, throwThe, MonadExceptOf.throw] at h
      | none =>
        rw [hc] at h
        rcases hap : apply_put_op put.put_type prev put.value with e | av
        · rw [hap] at h
          simp at h
        · rw [hap] at h
          simp only [pure, Except.pure, Except.ok.injEq, Prod.mk.injEq] at h
          exact .inl ⟨TxnIntent.with_put sv av, h.1.symm, rfl⟩

lemma processDeletes_ok_cases (st : EngineState) (resolve : Resolver)
    (sv shard : Nat) (dels : List DeleteRequest) :
    ∀ (idx0 : Nat) (wb : WriteBatch) (wrs : List WriteResponse),
    processDeletes st resolve sv shard idx0 dels = .ok (wb, wrs) →
    (∀ m ∈ wb, ∃ k it, m = .put shard k (encodeTxnIntent it)
        TXN_INTENT_VERSION ∧ it.start_version = sv) ∧
    (∀ d ∈ dels, topMatchesIntent st shard d.key sv ∨
      ∃ it, (Mutation.put shard d.key (encodeTxnIntent it)
        TXN_INTENT_VERSION) ∈ wb ∧ it.start_version = sv) := by
  induction dels with
  | nil =>
    intro idx0 wb wrs h
    simp only [processDeletes, Except.ok.injEq, Prod.mk.injEq] at h
    simp [← h.1]
  | cons d rest ih =>
    intro idx0 wb wrs h
    simp only [processDeletes, bind, Except.bind] at h
    rcases hstep : stepDelete st resolve sv shard idx0 d with e | ⟨mutOpt, wr⟩
    · rw [hstep] at h
      simp at h
    · rw [hstep] at h
      rcases hrest : processDeletes st resolve sv shard (idx0 + 1) rest
        with e | ⟨wb', wrs'⟩
      · rw [hrest] at h
        simp at h
      · rw [hrest] at h
        simp only [pure, Except.pure, Except.ok.injEq, Prod.mk.injEq] at h
        obtain ⟨hwb, _⟩ := h
        obtain ⟨hmuts, hdels⟩ := ih (idx0 + 1) wb' wrs' hrest
        rcases stepDelete_ok_cases st resolve sv shard idx0 d mutOpt wr hstep
          with ⟨it, hmut, hit⟩ | ⟨hmut, htop⟩
        · subst hmut
          refine ⟨?_, ?_⟩
          · intro m hm
            rw [← hwb] at hm
            rcases List.mem_cons.1 hm with hm | hm
            · exact ⟨d.key, it, hm, hit⟩
            · exact hmuts m hm
          · intro d' hd'
            rcases List.mem_cons.1 hd' with hd' | hd'
            · subst hd'
              exact .inr ⟨it, by rw [← hwb]; exact List.mem_cons_self .., hit⟩
            · rcases hdels d' hd' with htop' | ⟨it', hmem, hit'⟩
              · exact .inl htop'
              · exact .inr ⟨it', by rw [← hwb]; exact List.mem_cons_of_mem _ hmem, hit'⟩
        · subst hmut
          simp only [Option.toList, List.nil_append] at hwb
          refine ⟨?_, ?_⟩
          · intro m hm
            rw [← hwb] at hm
            exact hmuts m hm
          · intro d' hd'
            rcases List.mem_cons.1 hd' with hd' | hd'
            · subst hd'
              exact .inl htop
            · rcases hdels d' hd' with htop' | ⟨it', hmem, hit'⟩
              · exact .inl htop'
              · exact .inr ⟨it', by rw [← hwb]; exact hmem, hit'⟩

lemma processPuts_ok_cases (st : EngineState) (resolve : Resolver)
    (sv shard nd : Nat) (puts : List PutRequest) :
    ∀ (idx0 : Nat) (wb : WriteBatch) (wrs : List WriteResponse),
    processPuts st resolve sv shard nd idx0 puts = .ok (wb, wrs) →
    (∀ m ∈ wb, ∃ k it, m = .put shard k (encodeTxnIntent it)
        TXN_INTENT_VERSION ∧ it.start_version = sv) ∧
    (∀ p ∈ puts, topMatchesIntent st shard p.key sv ∨
      ∃ it, (Mutation.put shard p.key (encodeTxnIntent it)
        TXN_INTENT_VERSION) ∈ wb ∧ it.start_version = sv) := by
  induction puts with
  | nil =>
    intro idx0 wb wrs h
    simp only [processPuts, Except.ok.injEq, Prod.mk.injEq] at h
    simp [← h.1]
  | cons p rest ih =>
    intro idx0 wb wrs h
    simp only [processPuts, bind, Except.bind] at h
    rcases hstep : stepPut st resolve sv shard nd idx0 p with e | ⟨mutOpt, wr⟩
    · rw [hstep] at h
      simp at h
    · rw [hstep] at h
      rcases hrest : processPuts st resolve sv shard nd (idx0 + 1) rest
        with e | ⟨wb', wrs'⟩
      · rw [hrest] at h
        simp at h
      · rw [hrest] at h
        simp only [pure, Except.pure, Except.ok.injEq, Prod.mk.injEq] at h
        obtain ⟨hwb, _⟩ := h
        obtain ⟨hmuts, hputs⟩ := ih (idx0 + 1) wb' wrs' hrest
        rcases stepPut_ok_cases st resolve sv shard nd idx0 p mutOpt wr hstep
          with ⟨it, hmut, hit⟩ | ⟨hmut, htop⟩
        · subst hmut
          refine ⟨?_, ?_⟩
          · intro m hm
            rw [← hwb] at hm
            rcases List.mem_cons.1 hm with hm | hm
            · exact ⟨p.key, it, hm, hit⟩
            · exact hmuts m hm
          · intro p' hp'
            rcases List.mem_cons.1 hp' with hp' | hp'
            · subst hp'
              exact .inr ⟨it, by rw [← hwb]; exact List.mem_cons_self .., hit⟩
            · rcases hputs p' hp' with htop' | ⟨it', hmem, hit'⟩
              · exact .inl htop'
              · exact .inr ⟨it', by rw [← hwb]; exact List.mem_cons_of_mem _ hmem, hit'⟩
        · subst hmut
          simp only [Option.toList, List.nil_append] at hwb
          refine ⟨?_, ?_⟩
          · intro m hm
            rw [← hwb] at hm
            exact hmuts m hm
          · intro p' hp'
            rcases List.mem_cons.1 hp' with hp' | hp'
            · subst hp'
              exact .inl htop
            · rcases hputs p' hp' with htop' | ⟨it', hmem, hit'⟩
              · exact .inl htop'
              · exact .inr ⟨it', by rw [← hwb]; exact hmem, hit'⟩

lemma mem_insertVersioned (l : List Value) (v x : Value)
    (h : x ∈ insertVersioned l v) : x = v ∨ x ∈ l := by
  induction l with
  | nil =>
    simp only [insertVersioned, List.mem_singleton] at h
    exact .inl h
  | cons e rest ih =>
    simp only [insertVersioned] at h
    by_cases h1 : e.version < v.version
    · rw [if_pos h1] at h
      rcases List.mem_cons.1 h with h | h
      · exact .inl h
      · exact .inr h
    · rw [if_neg h1] at h
      by_cases h2 : e.version = v.version
      · rw [if_pos h2] at h
        rcases List.mem_cons.1 h with h | h
        · exact .inl h
        · exact .inr (List.mem_cons_of_mem _ h)
      · rw [if_neg h2] at h
        rcases List.mem_cons.1 h with h | h
        · exact .inr (h ▸ List.mem_cons_self ..)
        · rcases ih h with h | h
          · exact .inl h
          · exact .inr (List.mem_cons_of_mem _ h)

lemma insertVersioned_intent_head (l : List Value) (c : Option Bytes)
    (hwf : ∀ v ∈ l, v.version ≤ TXN_INTENT_VERSION) :
    ∃ rest, insertVersioned l ⟨TXN_INTENT_VERSION, c⟩ =
      ⟨TXN_INTENT_VERSION, c⟩ :: rest := by
  cases l with
  | nil => exact ⟨[], rfl⟩
  | cons e r =>
    simp only [insertVersioned]
    by_cases h1 : e.version < TXN_INTENT_VERSION
    · rw [if_pos h1]
      exact ⟨e :: r, rfl⟩
    · have h2 : e.version = TXN_INTENT_VERSION :=
        le_antisymm (hwf e (List.mem_cons_self ..)) (le_of_not_lt h1)
      rw [if_neg h1, if_pos h2]
      exact ⟨r, rfl⟩

lemma setChain_same (st : EngineState) (shard : Nat) (key : Bytes)
    (chain : List Value) : setChain st shard key chain shard key = chain := by
  simp [setChain]

lemma setChain_other (st : EngineState) (shard : Nat) (key : Bytes)
    (chain : List Value) (s : Nat) (k : Bytes) (h : ¬(s = shard ∧ k = key)) :
    setChain st shard key chain s k = st s k := by
  simp [setChain, h]

lemma WfEngine_applyMutation_put (st : EngineState) (s0 : Nat) (k0 v : Bytes)
    (ver : Nat) (hver : ver ≤ TXN_INTENT_VERSION) (hwf : WfEngine st) :
    WfEngine (applyMutation st (.put s0 k0 v ver)) := by
  intro s k x hx
  simp only [applyMutation] at hx
  by_cases h : s = s0 ∧ k = k0
  · obtain ⟨hs, hk⟩ := h
    subst hs
    subst hk
    rw [setChain_same] at hx
    rcases mem_insertVersioned _ _ _ hx with h | h
    · rw [h]
      exact hver
    · exact hwf s k x h
  · rw [setChain_other _ _ _ _ _ _ h] at hx
    exact hwf s k x hx

lemma applyBatch_topMatches (sv : Nat) (hsv : sv < 18446744073709551616)
    (wb : WriteBatch) :
    ∀ (st : EngineState), WfEngine st → IsIntentBatch sv wb →
    ∀ (s : Nat) (k : Bytes),
    (topMatchesIntent st s k sv ∨
      ∃ it, (Mutation.put s k (encodeTxnIntent it) TXN_INTENT_VERSION) ∈ wb ∧
        it.start_version = sv) →
    topMatchesIntent (applyBatch st wb) s k sv := by
  induction wb with
  | nil =>
    intro st _ _ s k hpre
    rcases hpre with h | ⟨it, hmem, _⟩
    · exact h
    · simp at hmem
  | cons m wb' ih =>
    intro st hwf hbatch s k hpre
    obtain ⟨s0, k0, it0, hm, hit0⟩ := hbatch m (List.mem_cons_self ..)
    subst hm
    have hsv0 : it0.start_version < 18446744073709551616 := by rw [hit0]; exact hsv
    have hwf' : WfEngine (applyMutation st (.put s0 k0 (encodeTxnIntent it0)
        TXN_INTENT_VERSION)) :=
      WfEngine_applyMutation_put st s0 k0 _ _ le_rfl hwf
    have hbatch' : IsIntentBatch sv wb' :=
      fun m hm => hbatch m (List.mem_cons_of_mem _ hm)
    have hstep : ∀ (s' : Nat) (k' : Bytes), topMatchesIntent st s' k' sv ∨
        (s' = s0 ∧ k' = k0) →
        topMatchesIntent (applyMutation st (.put s0 k0 (encodeTxnIntent it0)
          TXN_INTENT_VERSION)) s' k' sv := by
      intro s' k' hpre'
      by_cases hk : s' = s0 ∧ k' = k0
      · obtain ⟨hs', hk'⟩ := hk
        subst hs'
        subst hk'
        obtain ⟨rest, hins⟩ := insertVersioned_intent_head (st s' k')
          (some (encodeTxnIntent it0)) (fun v hv => hwf s' k' v hv)
        refine ⟨⟨TXN_INTENT_VERSION, some (encodeTxnIntent it0)⟩, rest, ?_, rfl,
          encodeTxnIntent it0, it0, rfl,
          decodeTxnIntent_encodeTxnIntent it0 hsv0, hit0⟩
        simp only [applyMutation]
        rw [setChain_same, hins]
      · rcases hpre' with htop | hk'
        · obtain ⟨e, rest, hchain, hrest⟩ := htop
          refine ⟨e, rest, ?_, hrest⟩
          simp only [applyMutation]
          rw [setChain_other _ _ _ _ _ _ hk]
          exact hchain
        · exact absurd hk' hk
    simp only [applyBatch, List.foldl_cons]
    rcases hpre with htop | ⟨it, hmem, hit⟩
    · exact ih _ hwf' hbatch' s k (.inl (hstep s k (.inl htop)))
    · rcases List.mem_cons.1 hmem with heq | hmem'
      · have hsk : s = s0 ∧ k = k0 := by
          injection heq with h1 h2 h3 h4
          exact ⟨h1, h2⟩
        exact ih _ hwf' hbatch' s k (.inl (hstep s k (.inr hsk)))
      · exact ih _ hwf' hbatch' s k (.inr ⟨it, hmem', hit⟩)

lemma topMatches_read (st : EngineState) (sv shard : Nat) (key : Bytes)
    (h : topMatchesIntent st shard key sv) :
    ∃ it prev0, read_intent_and_next_key st sv shard key = .ok (some it, prev0) ∧
      it.start_version = sv := by
  obtain ⟨e, rest, hchain, hver, c, it, hc, hd, hit⟩ := h
  refine ⟨it, rest.head?, ?_, hit⟩
  simp only [read_intent_and_next_key]
  rw [hchain]
  dsimp only
  rw [if_pos hver, hc]
  dsimp only
  rw [hd]

lemma processDeletes_all_skip (st : EngineState) (resolve : Resolver)
    (sv shard : Nat) (dels : List DeleteRequest)
    (h : ∀ d ∈ dels, topMatchesIntent st shard d.key sv) :
    ∀ idx0, ∃ wrs, processDeletes st resolve sv shard idx0 dels = .ok ([], wrs) := by
  induction dels with
  | nil => exact fun idx0 => ⟨[], rfl⟩
  | cons d rest ih =>
    intro idx0
    obtain ⟨it, prev0, hread, hit⟩ :=
      topMatches_read st sv shard d.key (h d (List.mem_cons_self ..))
    have hobs := observeWrite_skip st resolve sv shard d.key it prev0 hread hit
    have hstep := stepDelete_skip st resolve sv shard idx0 d prev0 hobs
    obtain ⟨wrs, hrest⟩ := ih (fun d' hd' => h d' (List.mem_cons_of_mem _ hd')) (idx0 + 1)
    refine ⟨⟨if d.take_prev_value then prev0 else none⟩ :: wrs, ?_⟩
    rw [processDeletes_cons_ok st resolve sv shard idx0 d rest _ hstep, hrest]
    rfl

lemma processPuts_all_skip (st : EngineState) (resolve : Resolver)
    (sv shard nd : Nat) (puts : List PutRequest)
    (h : ∀ p ∈ puts, topMatchesIntent st shard p.key sv) :
    ∀ idx0, ∃ wrs, processPuts st resolve sv shard nd idx0 puts = .ok ([], wrs) := by
  induction puts with
  | nil => exact fun idx0 => ⟨[], rfl⟩
  | cons p rest ih =>
    intro idx0
    obtain ⟨it, prev0, hread, hit⟩ :=
      topMatches_read st sv shard p.key (h p (List.mem_cons_self ..))
    have hobs := observeWrite_skip st resolve sv shard p.key it prev0 hread hit
    have hstep := stepPut_skip st resolve sv shard nd idx0 p prev0 hobs
    obtain ⟨wrs, hrest⟩ := ih (fun p' hp' => h p' (List.mem_cons_of_mem _ hp')) (idx0 + 1)
    refine ⟨⟨if p.take_prev_value then prev0 else none⟩ :: wrs, ?_⟩
    rw [processPuts_cons_ok st resolve sv shard nd idx0 p rest _ hstep, hrest]
    rfl

lemma write_intent_ok_destruct (resolve : Resolver) (st : EngineState)
    (sv : Nat) (w : ShardWriteRequest) (r : Option WriteBatch)
    (resp : WriteIntentResponse)
    (h : write_intent resolve st ⟨sv, some w⟩ = .ok (r, resp)) :
    ∃ wbD rD wbP rP,
      processDeletes st resolve sv w.shard_id 0 w.deletes = .ok (wbD, rD) ∧
      processPuts st resolve sv w.shard_id w.deletes.length 0 w.puts = .ok (wbP, rP) ∧
      r = (if (wbD ++ wbP).isEmpty then none else some (wbD ++ wbP)) := by
  simp only [write_intent, bind, Except.bind] at h
  rcases hd : processDeletes st resolve sv w.shard_id 0 w.deletes
    with e | ⟨wbD, rD⟩
  · rw [hd] at h
    simp at h
  · rw [hd] at h
    rcases hp : processPuts st resolve sv w.shard_id w.deletes.length 0 w.puts
      with e | ⟨wbP, rP⟩
    · rw [hp] at h
      simp at h
    · rw [hp] at h
      simp only [pure, Except.pure, Except.ok.injEq, Prod.mk.injEq] at h
      exact ⟨wbD, rD, wbP, rP, rfl, rfl, h.1.symm⟩

/-- C2: `write_intent` is idempotent.  If a request evaluates to a batch and
that batch is committed to the engine, re-evaluating the same request on the
new state yields `EvalResult = None` (the computed batch is empty: every
write is an idempotent skip), so the on-disk state after the second call is
identical to the state after the first (`applyEvalResult` of `none` is the
identity).  The second call's latch guard is arbitrary — no intent is
resolved during the replay. -/
theorem claim_C2 (resolve resolve2 : Resolver) (st : EngineState)
    (req : WriteIntentRequest) (wb : WriteBatch) (resp : WriteIntentResponse)
    (hwf : WfEngine st) (hsv : req.start_version < 18446744073709551616)
    (h : write_intent resolve st req = .ok (some wb, resp)) :
    ∃ resp2, write_intent resolve2 (applyBatch st wb) req = .ok (none, resp2) ∧
      applyEvalResult (applyBatch st wb) none = applyBatch st wb := by
  obtain ⟨sv, wr⟩ := req
  cases wr with
  | none => exact absurd h (by simp [write_intent, throw, throwThe, MonadExceptOf.throw])
  | some w =>
    obtain ⟨wbD, rD, wbP, rP, hdel, hput, hr⟩ :=
      write_intent_ok_destruct resolve st sv w (some wb) resp h
    have hwb : wb = wbD ++ wbP := by
      by_cases he : (wbD ++ wbP).isEmpty
      · rw [if_pos he] at hr
        simp at hr
      · rw [if_neg he] at hr
        injection hr with hr
    obtain ⟨hmutsD, hdelsD⟩ := processDeletes_ok_cases st resolve sv w.shard_id
      w.deletes 0 wbD rD hdel
    obtain ⟨hmutsP, hputsP⟩ := processPuts_ok_cases st resolve sv w.shard_id
      w.deletes.length w.puts 0 wbP rP hput
    have hbatch : IsIntentBatch sv wb := by
      intro m hm
      rw [hwb] at hm
      rcases List.mem_append.1 hm with hm | hm
      · obtain ⟨k, it, hmk, hit⟩ := hmutsD m hm
        exact ⟨w.shard_id, k, it, hmk, hit⟩
      · obtain ⟨k, it, hmk, hit⟩ := hmutsP m hm
        exact ⟨w.shard_id, k, it, hmk, hit⟩
    have hsv' : sv < 18446744073709551616 := hsv
    set st2 := applyBatch st wb with hst2
    have htopD : ∀ d ∈ w.deletes, topMatchesIntent st2 w.shard_id d.key sv := by
      intro d hd
      refine applyBatch_topMatches sv hsv' wb st hwf hbatch w.shard_id d.key ?_
      rcases hdelsD d hd with htop | ⟨it, hmem, hit⟩
      · exact .inl htop
      · exact .inr ⟨it, by rw [hwb]; exact List.mem_append_left _ hmem, hit⟩
    have htopP : ∀ p ∈ w.puts, topMatchesIntent st2 w.shard_id p.key sv := by
      intro p hp
      refine applyBatch_topMatches sv hsv' wb st hwf hbatch w.shard_id p.key ?_
      rcases hputsP p hp with htop | ⟨it, hmem, hit⟩
      · exact .inl htop
      · exact .inr ⟨it, by rw [hwb]; exact List.mem_append_right _ hmem, hit⟩
    obtain ⟨rD2, hD2⟩ := processDeletes_all_skip st2 resolve2 sv w.shard_id
      w.deletes htopD 0
    obtain ⟨rP2, hP2⟩ := processPuts_all_skip st2 resolve2 sv w.shard_id
      w.deletes.length w.puts htopP 0
    refine ⟨⟨some ⟨rD2, rP2⟩⟩, ?_, rfl⟩
    simp only [write_intent, hD2, hP2, bind, Except.bind, pure, Except.pure,
      List.nil_append, List.isEmpty_nil, if_true]

/-- C2 witness: the theorem applied to the concrete request putting `[9, 9]`
at key `[7]` of shard 1 on an empty engine; the first call stages one intent
record, and after committing it the replay returns `EvalResult = None`. -/
theorem claim_C2_witness :
    WfEngine stEmpty ∧
    (3 : Nat) < 18446744073709551616 ∧
    write_intent resolveNone stEmpty
      ⟨3, some ⟨1, [⟨.None, [7], [9, 9], [], true⟩], []⟩⟩ =
      .ok (some [.put 1 [7] (encodeTxnIntent ⟨3, false, some [9, 9]⟩)
        TXN_INTENT_VERSION], ⟨some ⟨[], [⟨none⟩]⟩⟩) ∧
    (∃ resp2, write_intent resolveNone
      (applyBatch stEmpty [.put 1 [7] (encodeTxnIntent ⟨3, false, some [9, 9]⟩)
        TXN_INTENT_VERSION])
      ⟨3, some ⟨1, [⟨.None, [7], [9, 9], [], true⟩], []⟩⟩ = .ok (none, resp2)) := by
  have hwf : WfEngine stEmpty := by
    intro s k v hv
    simp [stEmpty] at hv
  have hcall : write_intent resolveNone stEmpty
      ⟨3, some ⟨1, [⟨.None, [7], [9, 9], [], true⟩], []⟩⟩ =
      .ok (some [.put 1 [7] (encodeTxnIntent ⟨3, false, some [9, 9]⟩)
        TXN_INTENT_VERSION], ⟨some ⟨[], [⟨none⟩]⟩⟩) := by decide
  obtain ⟨resp2, h2, _⟩ := claim_C2 resolveNone resolveNone stEmpty
    ⟨3, some ⟨1, [⟨.None, [7], [9, 9], [], true⟩], []⟩⟩
    [.put 1 [7] (encodeTxnIntent ⟨3, false, some [9, 9]⟩) TXN_INTENT_VERSION]
    ⟨some ⟨[], [⟨none⟩]⟩⟩ hwf (by decide) hcall
  exact ⟨hwf, by decide, hcall, resp2, h2⟩

/-! ### C1: per-key effect of `commit_intent` -/

lemma removeVersion_idem (l : List Value) (ver : Nat) :
    removeVersion (removeVersion l ver) ver = removeVersion l ver := by
  simp [removeVersion, List.filter_filter]

lemma mem_removeVersion (l : List Value) (ver : Nat) (x : Value)
    (h : x ∈ removeVersion l ver) : x ∈ l :=
  List.mem_of_mem_filter h

lemma insertVersioned_of_all_lt (l : List Value) (x : Value)
    (h : ∀ v ∈ l, v.version < x.version) : insertVersioned l x = x :: l := by
  cases l with
  | nil => rfl
  | cons e r =>
    simp only [insertVersioned]
    rw [if_pos (h e (List.mem_cons_self ..))]

lemma removeVersion_cons (e : Value) (l : List Value) (ver : Nat) :
    removeVersion (e :: l) ver =
      if e.version = ver then removeVersion l ver
      else e :: removeVersion l ver := by
  by_cases h : e.version = ver <;> simp [removeVersion, List.filter_cons, h]

lemma removeVersion_insertVersioned_ne (l : List Value) (x : Value)
    (hwf : ∀ v ∈ l, v.version ≤ TXN_INTENT_VERSION)
    (hx : x.version ≠ TXN_INTENT_VERSION) :
    removeVersion (insertVersioned l x) TXN_INTENT_VERSION =
      insertVersioned (removeVersion l TXN_INTENT_VERSION) x := by
  induction l with
  | nil => simp [insertVersioned, removeVersion, hx]
  | cons e rest ih =>
    have hwf' : ∀ v ∈ rest, v.version ≤ TXN_INTENT_VERSION :=
      fun v hv => hwf v (List.mem_cons_of_mem _ hv)
    simp only [insertVersioned]
    by_cases h1 : e.version < x.version
    · rw [if_pos h1, removeVersion_cons, removeVersion_cons, if_neg hx]
      by_cases hei : e.version = TXN_INTENT_VERSION
      · rw [if_pos hei]
        have hgt : TXN_INTENT_VERSION < x.version := hei ▸ h1
        rw [insertVersioned_of_all_lt]
        intro v hv
        exact lt_of_le_of_lt (hwf' v (mem_removeVersion rest _ v hv)) hgt
      · rw [if_neg hei]
        simp only [insertVersioned]
        rw [if_pos h1]
    · rw [if_neg h1]
      by_cases h2 : e.version = x.version
      · rw [if_pos h2]
        have hei : e.version ≠ TXN_INTENT_VERSION := h2 ▸ hx
        rw [removeVersion_cons, if_neg hx, removeVersion_cons, if_neg hei]
        simp only [insertVersioned]
        rw [if_neg h1, if_pos h2]
      · rw [if_neg h2, removeVersion_cons, removeVersion_cons]
        by_cases hei : e.version = TXN_INTENT_VERSION
        · rw [if_pos hei, if_pos hei]
          exact ih hwf'
        · rw [if_neg hei, if_neg hei]
          simp only [insertVersioned]
          rw [if_neg h1, if_neg h2, ih hwf']

lemma removeVersion_insertVersioned_intent (l : List Value) (x : Value)
    (hx : x.version = TXN_INTENT_VERSION) :
    removeVersion (insertVersioned l x) TXN_INTENT_VERSION =
      removeVersion l TXN_INTENT_VERSION := by
  induction l with
  | nil => simp [insertVersioned, removeVersion, hx]
  | cons e rest ih =>
    simp only [insertVersioned]
    by_cases h1 : e.version < x.version
    · rw [if_pos h1, removeVersion_cons, if_pos hx]
    · rw [if_neg h1]
      by_cases h2 : e.version = x.version
      · rw [if_pos h2, removeVersion_cons, if_pos hx, removeVersion_cons,
          if_pos (h2.trans hx)]
      · rw [if_neg h2, removeVersion_cons, removeVersion_cons]
        by_cases hei : e.version = TXN_INTENT_VERSION
        · rw [if_pos hei, if_pos hei]
          exact ih
        · rw [if_neg hei, if_neg hei, ih]

lemma insertVersioned_idem (l : List Value) (x : Value) :
    insertVersioned (insertVersioned l x) x = insertVersioned l x := by
  induction l with
  | nil => simp [insertVersioned]
  | cons e rest ih =>
    simp only [insertVersioned]
    by_cases h1 : e.version < x.version
    · rw [if_pos h1]
      simp [insertVersioned]
    · rw [if_neg h1]
      by_cases h2 : e.version = x.version
      · rw [if_pos h2]
        simp [insertVersioned]
      · rw [if_neg h2]
        simp only [insertVersioned]
        rw [if_neg h1, if_neg h2, ih]

lemma applyChain_append (a b : List Mutation) :
    ∀ chain, applyChain (a ++ b) chain = applyChain b (applyChain a chain) := by
  induction a with
  | nil => intro chain; rfl
  | cons m rest ih =>
    intro chain
    cases m with
    | put s k v ver => simpa [applyChain] using ih _
    | del s k ver => simpa [applyChain] using ih _
    | tombstone s k ver => simpa [applyChain] using ih _

lemma applyBatch_localize (wb : WriteBatch) :
    ∀ (st : EngineState) (s : Nat) (k : Bytes),
    applyBatch st wb s k =
      applyChain (wb.filter (fun m => decide (m.shardKey = (s, k)))) (st s k) := by
  induction wb with
  | nil => intro st s k; rfl
  | cons m wb' ih =>
    intro st s k
    simp only [applyBatch, List.foldl_cons] at *
    by_cases hm : m.shardKey = (s, k)
    · rw [List.filter_cons_of_pos (by simpa using hm)]
      rw [ih]
      have hchain : (applyMutation st m) s k =
          applyChain [m] (st s k) := by
        cases m with
        | put s0 k0 v ver =>
          have hs : s0 = s := congrArg Prod.fst hm
          have hk : k0 = k := congrArg Prod.snd hm
          subst hs
          subst hk
          simp only [applyMutation, applyChain]
          rw [setChain_same]
        | del s0 k0 ver =>
          have hs : s0 = s := congrArg Prod.fst hm
          have hk : k0 = k := congrArg Prod.snd hm
          subst hs
          subst hk
          simp only [applyMutation, applyChain]
          rw [setChain_same]
        | tombstone s0 k0 ver =>
          have hs : s0 = s := congrArg Prod.fst hm
          have hk : k0 = k := congrArg Prod.snd hm
          subst hs
          subst hk
          simp only [applyMutation, applyChain]
          rw [setChain_same]
      rw [hchain]
      cases m with
      | put s0 k0 v ver => rfl
      | del s0 k0 ver => rfl
      | tombstone s0 k0 ver => rfl
    · rw [List.filter_cons_of_neg (by simpa using hm)]
      rw [ih]
      have hchain : (applyMutation st m) s k = st s k := by
        cases m with
        | put s0 k0 v ver =>
          simp only [applyMutation]
          refine setChain_other _ _ _ _ _ _ ?_
          rintro ⟨hs, hk⟩
          exact hm (by simp [Mutation.shardKey, hs, hk])
        | del s0 k0 ver =>
          simp only [applyMutation]
          refine setChain_other _ _ _ _ _ _ ?_
          rintro ⟨hs, hk⟩
          exact hm (by simp [Mutation.shardKey, hs, hk])
        | tombstone s0 k0 ver =>
          simp only [applyMutation]
          refine setChain_other _ _ _ _ _ _ ?_
          rintro ⟨hs, hk⟩
          exact hm (by simp [Mutation.shardKey, hs, hk])
      rw [hchain]

lemma commitKeyMuts_of_read (st : EngineState) (sv cv shard : Nat)
    (key : Bytes) (ti : Option TxnIntent)
    (hread : read_target_intent st sv shard key = .ok ti) :
    commitKeyMuts st sv cv shard key = .ok
      (match ti with
       | none => []
       | some intent =>
         if intent.is_delete then
           [.del shard key TXN_INTENT_VERSION, .tombstone shard key cv]
         else
           match intent.value with
           | some v => [.del shard key TXN_INTENT_VERSION, .put shard key v cv]
           | none => [.del shard key TXN_INTENT_VERSION]) := by
  cases ti with
  | none => simp [commitKeyMuts, hread, bind, Except.bind, pure, Except.pure]
  | some intent =>
    cases hdel : intent.is_delete with
    | true => simp [commitKeyMuts, hread, hdel, bind, Except.bind, pure, Except.pure]
    | false =>
      cases hv : intent.value with
      | some v =>
        simp [commitKeyMuts, hread, hdel, hv, bind, Except.bind, pure, Except.pure]
      | none =>
        simp [commitKeyMuts, hread, hdel, hv, bind, Except.bind, pure, Except.pure]

lemma commitKeyMuts_shardKey (st : EngineState) (sv cv shard : Nat)
    (key : Bytes) (muts : List Mutation)
    (h : commitKeyMuts st sv cv shard key = .ok muts) :
    ∀ m ∈ muts, m.shardKey = (shard, key) := by
  simp only [commitKeyMuts, bind, Except.bind] at h
  rcases hread : read_target_intent st sv shard key with e | ti
  · rw [hread] at h
    simp at h
  · rw [hread] at h
    cases ti with
    | none =>
      simp only [pure, Except.pure, Except.ok.injEq] at h
      simp [← h]
    | some intent =>
      dsimp only at h
      by_cases hdel : intent.is_delete
      · rw [if_pos hdel] at h
        simp only [pure, Except.pure, Except.ok.injEq] at h
        intro m hm
        rw [← h] at hm
        rcases List.mem_cons.1 hm with hm | hm
        · rw [hm]; rfl
        · rcases List.mem_cons.1 hm with hm | hm
          · rw [hm]; rfl
          · simp at hm
      · rw [if_neg hdel] at h
        cases hv : intent.value with
        | some v =>
          rw [hv] at h
          simp only [pure, Except.pure, Except.ok.injEq] at h
          intro m hm
          rw [← h] at hm
          rcases List.mem_cons.1 hm with hm | hm
          · rw [hm]; rfl
          · rcases List.mem_cons.1 hm with hm | hm
            · rw [hm]; rfl
            · simp at hm
        | none =>
          rw [hv] at h
          simp only [pure, Except.pure, Except.ok.injEq] at h
          intro m hm
          rw [← h] at hm
          rcases List.mem_cons.1 hm with hm | hm
          · rw [hm]; rfl
          · simp at hm

lemma commitBatch_cons (st : EngineState) (sv cv shard : Nat) (key : Bytes)
    (rest : List Bytes) (wb : WriteBatch)
    (h : commitBatch st sv cv shard (key :: rest) = .ok wb) :
    ∃ muts wb', commitKeyMuts st sv cv shard key = .ok muts ∧
      commitBatch st sv cv shard rest = .ok wb' ∧ wb = muts ++ wb' := by
  simp only [commitBatch, bind, Except.bind] at h
  rcases hm : commitKeyMuts st sv cv shard key with e | muts
  · rw [hm] at h
    simp at h
  · rw [hm] at h
    rcases hr : commitBatch st sv cv shard rest with e | wb'
    · rw [hr] at h
      simp at h
    · rw [hr] at h
      simp only [pure, Except.pure, Except.ok.injEq] at h
      exact ⟨muts, wb', rfl, rfl, h.symm⟩

lemma commitBatch_filter (st : EngineState) (sv cv shard : Nat)
    (keys : List Bytes) :
    ∀ (wb : WriteBatch), commitBatch st sv cv shard keys = .ok wb →
    ∀ (k : Bytes) (chunk : List Mutation),
      commitKeyMuts st sv cv shard k = .ok chunk →
    ∃ n : Nat,
      wb.filter (fun m => decide (m.shardKey = (shard, k))) =
        (List.replicate n chunk).flatten ∧ (k ∈ keys → 1 ≤ n) := by
  induction keys with
  | nil =>
    intro wb h k chunk _
    simp only [commitBatch, pure, Except.pure, Except.ok.injEq] at h
    refine ⟨0, ?_, by simp⟩
    rw [← h]
    rfl
  | cons key rest ih =>
    intro wb h k chunk hchunk
    obtain ⟨muts, wb', hmuts, hrest, hwb⟩ :=
      commitBatch_cons st sv cv shard key rest wb h
    obtain ⟨n', hfilter', hmem'⟩ := ih wb' hrest k chunk hchunk
    subst hwb
    rw [List.filter_append]
    by_cases hk : k = key
    · subst hk
      have hchunkeq : muts = chunk := by
        rw [hmuts] at hchunk
        exact Except.ok.inj hchunk
      subst hchunkeq
      have hall : ∀ m ∈ muts, m.shardKey = (shard, k) :=
        commitKeyMuts_shardKey st sv cv shard k muts hmuts
      have hfiltermuts : muts.filter (fun m => decide (m.shardKey = (shard, k))) = muts := by
        apply List.filter_eq_self.2
        intro m hm
        simp [hall m hm]
      refine ⟨n' + 1, ?_, fun _ => by omega⟩
      rw [hfiltermuts, hfilter', List.replicate_succ, List.flatten_cons]
    · have hall : ∀ m ∈ muts, m.shardKey = (shard, key) :=
        commitKeyMuts_shardKey st sv cv shard key muts hmuts
      have hfiltermuts : muts.filter (fun m => decide (m.shardKey = (shard, k))) = [] := by
        apply List.filter_eq_nil_iff.2
        intro m hm
        simp only [decide_eq_true_eq]
        rw [hall m hm]
        intro hc
        exact hk (Prod.mk.injEq .. ▸ hc).2.symm
      refine ⟨n', ?_, fun hmem => ?_⟩
      · rw [hfiltermuts, hfilter', List.nil_append]
      · rcases List.mem_cons.1 hmem with hmem | hmem
        · exact absurd hmem hk
        · exact hmem' hmem

lemma applyChain_fixpoint (chunk : List Mutation) (B : List Value)
    (hfix : applyChain chunk B = B) :
    ∀ n, applyChain ((List.replicate n chunk).flatten) B = B := by
  intro n
  induction n with
  | zero => rfl
  | succ m ih =>
    rw [List.replicate_succ, List.flatten_cons, applyChain_append, hfix, ih]

lemma insert_remove_idem (chain : List Value)
    (hwf : ∀ v ∈ chain, v.version ≤ TXN_INTENT_VERSION) (x : Value) :
    insertVersioned (removeVersion
        (insertVersioned (removeVersion chain TXN_INTENT_VERSION) x)
        TXN_INTENT_VERSION) x =
      insertVersioned (removeVersion chain TXN_INTENT_VERSION) x := by
  by_cases hx : x.version = TXN_INTENT_VERSION
  · rw [removeVersion_insertVersioned_intent _ _ hx, removeVersion_idem]
  · rw [removeVersion_insertVersioned_ne _ _
      (fun v hv => hwf v (mem_removeVersion chain _ v hv)) hx,
      removeVersion_idem, insertVersioned_idem]

/-- C1 counterexample: the claim says that when the top of a key is an intent
with matching `start_version`, `commit_intent` deletes the intent and — the
intent's `is_delete` being unset — "inserts the intent's value at
commit_version".  A `Nop` intent has no value (`value = None`, not a
tombstone marker): the code deletes the intent and inserts nothing, so after
applying the batch the key's chain is empty and no record exists at the
commit version 7. -/
theorem claim_C1_counterexample :
    read_target_intent stNopIntent 5 1 [2] = .ok (some ⟨5, false, none⟩) ∧
    commit_intent stNopIntent ⟨1, 5, 7, [[2]]⟩ =
      .ok (some [.del 1 [2] TXN_INTENT_VERSION]) ∧
    applyEvalResult stNopIntent (some [.del 1 [2] TXN_INTENT_VERSION]) 1 [2] = [] := by
  refine ⟨by decide, by decide, by decide⟩

/-- C1 amended: for every `CommitIntentRequest`, every key in its keys list
and every committed result: if the key's top record is not an intent with the
request's `start_version` (`read_target_intent` yields `none`) the key is
unchanged (idempotent commit); otherwise the intent record at
`TXN_INTENT_VERSION` is deleted and — if `is_delete` — a tombstone is
inserted at `commit_version`, else, if the intent carries a value, that value
is inserted at `commit_version`, while a value-less (`Nop`) intent only has
its intent record deleted. -/
theorem claim_C1 (st : EngineState) (req : CommitIntentRequest)
    (r : Option WriteBatch) (key : Bytes) (ti : Option TxnIntent)
    (hwf : WfEngine st)
    (hok : commit_intent st req = .ok r)
    (hkey : key ∈ req.keys)
    (hread : read_target_intent st req.start_version req.shard_id key = .ok ti) :
    applyEvalResult st r req.shard_id key =
      match ti with
      | none => st req.shard_id key
      | some intent =>
        if intent.is_delete then
          insertVersioned (removeVersion (st req.shard_id key) TXN_INTENT_VERSION)
            ⟨req.commit_version, none⟩
        else
          match intent.value with
          | some v =>
            insertVersioned (removeVersion (st req.shard_id key) TXN_INTENT_VERSION)
              ⟨req.commit_version, some v⟩
          | none => removeVersion (st req.shard_id key) TXN_INTENT_VERSION := by
  obtain ⟨shard, sv, cv, keys⟩ := req
  simp only at hkey hread ⊢
  simp only [commit_intent, bind, Except.bind] at hok
  rcases hb : commitBatch st sv cv shard keys with e | wb
  · rw [hb] at hok
    simp at hok
  · rw [hb] at hok
    simp only [pure, Except.pure, Except.ok.injEq] at hok
    have happ : applyEvalResult st r = applyBatch st wb := by
      rw [← hok]
      by_cases he : wb.isEmpty
      · rw [if_pos he]
        have : wb = [] := by
          cases wb with
          | nil => rfl
          | cons a l => simp [List.isEmpty] at he
        rw [this]
        rfl
      · rw [if_neg he]
        rfl
    have hchunk := commitKeyMuts_of_read st sv cv shard key ti hread
    obtain ⟨n, hfilter, hmem⟩ := commitBatch_filter st sv cv shard keys wb hb
      key _ hchunk
    have hn : 1 ≤ n := hmem hkey
    obtain ⟨m, rfl⟩ : ∃ m, n = m + 1 := ⟨n - 1, by omega⟩
    rw [happ, applyBatch_localize, hfilter, List.replicate_succ, List.flatten_cons,
      applyChain_append]
    have hwfchain : ∀ v ∈ st shard key, v.version ≤ TXN_INTENT_VERSION :=
      fun v hv => hwf shard key v hv
    cases ti with
    | none =>
      simp only [applyChain]
      exact applyChain_fixpoint [] (st shard key) rfl m
    | some intent =>
      cases hdel : intent.is_delete with
      | true =>
        simp only [hdel, if_true]
        have hshape : applyChain
            [Mutation.del shard key TXN_INTENT_VERSION,
             Mutation.tombstone shard key cv] (st shard key) =
            insertVersioned (removeVersion (st shard key) TXN_INTENT_VERSION)
              ⟨cv, none⟩ := rfl
        rw [hshape]
        exact applyChain_fixpoint
          [Mutation.del shard key TXN_INTENT_VERSION,
           Mutation.tombstone shard key cv]
          (insertVersioned (removeVersion (st shard key) TXN_INTENT_VERSION)
            ⟨cv, none⟩)
          (by exact insert_remove_idem (st shard key) hwfchain ⟨cv, none⟩) m
      | false =>
        simp only [hdel, Bool.false_eq_true, if_false]
        cases hv : intent.value with
        | some v =>
          simp only [hv]
          have hshape : applyChain
              [Mutation.del shard key TXN_INTENT_VERSION,
               Mutation.put shard key v cv] (st shard key) =
              insertVersioned (removeVersion (st shard key) TXN_INTENT_VERSION)
                ⟨cv, some v⟩ := rfl
          rw [hshape]
          exact applyChain_fixpoint
            [Mutation.del shard key TXN_INTENT_VERSION,
             Mutation.put shard key v cv]
            (insertVersioned (removeVersion (st shard key) TXN_INTENT_VERSION)
              ⟨cv, some v⟩)
            (by exact insert_remove_idem (st shard key) hwfchain ⟨cv, some v⟩) m
        | none =>
          simp only [hv]
          have hshape : applyChain
              [Mutation.del shard key TXN_INTENT_VERSION] (st shard key) =
              removeVersion (st shard key) TXN_INTENT_VERSION := rfl
          rw [hshape]
          exact applyChain_fixpoint
            [Mutation.del shard key TXN_INTENT_VERSION]
            (removeVersion (st shard key) TXN_INTENT_VERSION)
            (by exact removeVersion_idem (st shard key) TXN_INTENT_VERSION) m

/-- C1 witness: the amended theorem applied to the concrete engine holding a
put intent of transaction 5 for bytes `[9]` over a committed value at
version 2: committing at version 7 deletes the intent and installs `[9]` at
version 7 above the old record. -/
theorem claim_C1_witness :
    WfEngine stPutIntent ∧
    commit_intent stPutIntent ⟨1, 5, 7, [[2]]⟩ =
      .ok (some [.del 1 [2] TXN_INTENT_VERSION, .put 1 [2] [9] 7]) ∧
    read_target_intent stPutIntent 5 1 [2] = .ok (some ⟨5, false, some [9]⟩) ∧
    applyEvalResult stPutIntent
      (some [.del 1 [2] TXN_INTENT_VERSION, .put 1 [2] [9] 7]) 1 [2] =
      [⟨7, some [9]⟩, ⟨2, some [4]⟩] := by
  have hwf : WfEngine stPutIntent := by
    intro s k v hv
    simp only [stPutIntent] at hv
    by_cases h : s = 1 ∧ k = [2]
    · rw [if_pos h] at hv
      rcases List.mem_cons.1 hv with hv | hv
      · rw [hv]
      · rcases List.mem_cons.1 hv with hv | hv
        · rw [hv]
          decide
        · simp at hv
    · rw [if_neg h] at hv
      simp at hv
  have h := claim_C1 stPutIntent ⟨1, 5, 7, [[2]]⟩
    (some [.del 1 [2] TXN_INTENT_VERSION, .put 1 [2] [9] 7]) [2]
    (some ⟨5, false, some [9]⟩) hwf (by decide) (by decide) (by decide)
  exact ⟨hwf, by decide, by decide, h.trans (by decide)⟩

end Sekas
